import Mathlib

/-!
# Doubly linked list with a bidirectional iterator

A shallow embedding of `LList<T>` (`MAINFILE - pa17.cpp`).

The free store is an arena: address `a` is cell `a` of a list, a cell holds the
node that lives there, or nothing once the node was deleted (or before it was
allocated).  `new` takes the next unused address.  A null pointer is `none`.
Dereferencing a null or dangling pointer is undefined behaviour in C++; the
embedding reports it as `Res.fault`, apart from the two C++ exceptions the
code throws itself.  A thrown exception carries the state at the `throw`.
-/

namespace DLL

/-- A `Node*`: `none` is `nullptr`. -/
abbrev Ptr := Option Nat

/-- The `struct Node` of the source: one element and the two links. -/
structure Node (T : Type) where
  data : T
  prev : Ptr
  next : Ptr
deriving DecidableEq

/-- The free store, addressed by cell index. -/
abbrev Heap (T : Type) := List (Option (Node T))

/-- The private members of `LList<T>`: `head`, `tail`, `count`.  `count` is a
`size_t`; it is kept as a natural number, since a chain of distinct live nodes
is bounded by the address space, so `++count` does not wrap, and every `--count`
the code performs on a well-formed sequence acts on a nonzero count. -/
structure LList where
  head : Ptr
  tail : Ptr
  count : Nat
deriving DecidableEq

/-- The private member of `BiDirectionalIterator`. -/
structure BiDirectionalIterator where
  current : Ptr
deriving DecidableEq

/-- The exceptions thrown by the source. -/
inductive Exn where
  | out_of_range
  | underflow_error
deriving DecidableEq

/-- Outcome of a call: normal return with the state and a value, an exception
with the state at the `throw`, or undefined behaviour. -/
inductive Res (σ α : Type) where
  | ok (s : σ) (a : α)
  | throw (e : Exn) (s : σ)
  | fault
deriving DecidableEq

/-- Read through a pointer (`p -> ...`). -/
def lookup {T : Type} (h : Heap T) : Ptr → Option (Node T)
  | none => none
  | some a => (h[a]?).join

/-- The assignment `p -> next = q`. -/
def setNext {T : Type} (h : Heap T) (p q : Ptr) : Option (Heap T) :=
  match p with
  | none => none
  | some a =>
    match lookup h (some a) with
    | none => none
    | some n => some (h.set a (some { n with next := q }))

/-- The assignment `p -> prev = q`. -/
def setPrev {T : Type} (h : Heap T) (p q : Ptr) : Option (Heap T) :=
  match p with
  | none => none
  | some a =>
    match lookup h (some a) with
    | none => none
    | some n => some (h.set a (some { n with prev := q }))

/-- The statement `delete p` (deleting `nullptr` does nothing). -/
def free {T : Type} (h : Heap T) (p : Ptr) : Option (Heap T) :=
  match p with
  | none => some h
  | some a =>
    match lookup h (some a) with
    | none => none
    | some _ => some (h.set a none)

/-- The default constructor `LList()`. -/
def mk_empty : LList := ⟨none, none, 0⟩

/-- The member `empty()`. -/
def empty (l : LList) : Bool := l.count == 0

/-- The member `size()`. -/
def size (l : LList) : Nat := l.count

/-- The member `begin()`. -/
def begin (l : LList) : BiDirectionalIterator := ⟨l.head⟩

/-- The member `end()`. -/
def end_ (_l : LList) : BiDirectionalIterator := ⟨none⟩

/-- The member `front()`. -/
def front {T : Type} (h : Heap T) (l : LList) : Res (Heap T × LList) T :=
  if empty l then .throw .out_of_range (h, l)
  else
    match lookup h l.head with
    | none => .fault
    | some n => .ok (h, l) n.data

/-- The member `back()`. -/
def back {T : Type} (h : Heap T) (l : LList) : Res (Heap T × LList) T :=
  if empty l then .throw .out_of_range (h, l)
  else
    match lookup h l.tail with
    | none => .fault
    | some n => .ok (h, l) n.data

/-- The member `push_back(value)`. -/
def push_back {T : Type} (h : Heap T) (l : LList) (value : T) :
    Res (Heap T × LList) Unit :=
  let newNode : Nat := h.length
  let h1 : Heap T := h ++ [some ⟨value, l.tail, none⟩]
  match (if l.tail ≠ none then setNext h1 l.tail (some newNode) else some h1) with
  | none => .fault
  | some h2 =>
    .ok (h2, ⟨if l.head = none then some newNode else l.head, some newNode,
      l.count + 1⟩) ()

/-- The member `pop_back()`. -/
def pop_back {T : Type} (h : Heap T) (l : LList) : Res (Heap T × LList) Unit :=
  if empty l then .throw .underflow_error (h, l)
  else
    let to_delete := l.tail
    match lookup h l.tail with
    | none => .fault
    | some n =>
      let tail := n.prev
      match (if tail ≠ none then setNext h tail none else some h) with
      | none => .fault
      | some h1 =>
        match free h1 to_delete with
        | none => .fault
        | some h2 =>
          .ok (h2, ⟨if tail ≠ none then l.head else none, tail, l.count - 1⟩) ()

/-- The member `push_front(value)`. -/
def push_front {T : Type} (h : Heap T) (l : LList) (value : T) :
    Res (Heap T × LList) Unit :=
  let newNode : Nat := h.length
  let h1 : Heap T := h ++ [some ⟨value, none, l.head⟩]
  match (if l.head ≠ none then setPrev h1 l.head (some newNode) else some h1) with
  | none => .fault
  | some h2 =>
    .ok (h2, ⟨some newNode, if l.tail = none then some newNode else l.tail,
      l.count + 1⟩) ()

/-- The member `pop_front()`. -/
def pop_front {T : Type} (h : Heap T) (l : LList) : Res (Heap T × LList) Unit :=
  if empty l then .throw .underflow_error (h, l)
  else
    let to_delete := l.head
    match lookup h l.head with
    | none => .fault
    | some n =>
      let head := n.next
      match (if head ≠ none then setPrev h head none else some h) with
      | none => .fault
      | some h1 =>
        match free h1 to_delete with
        | none => .fault
        | some h2 =>
          .ok (h2, ⟨head, if head ≠ none then l.tail else none, l.count - 1⟩) ()

/-- The loop of `clear()`: `while (!empty()) pop_front();`, at most `fuel`
rounds. -/
def clearLoop {T : Type} : Nat → Heap T → LList → Res (Heap T × LList) Unit
  | 0, h, l => .ok (h, l) ()
  | fuel + 1, h, l =>
    if !empty l then
      match pop_front h l with
      | .ok (h1, l1) _ => clearLoop fuel h1 l1
      | .throw e s => .throw e s
      | .fault => .fault
    else .ok (h, l) ()

/-- The member `clear()`.  Each round of the loop lowers `count` by one, so
`count` rounds are all the loop can make. -/
def clear {T : Type} (h : Heap T) (l : LList) : Res (Heap T × LList) Unit :=
  clearLoop l.count h l

/-- The member `insert(pos, value)`. -/
def insert {T : Type} (h : Heap T) (l : LList) (pos : BiDirectionalIterator)
    (value : T) : Res (Heap T × LList) BiDirectionalIterator :=
  if pos.current = (begin l).current then
    match push_front h l value with
    | .ok (h1, l1) _ => .ok (h1, l1) ⟨l1.head⟩
    | .throw e s => .throw e s
    | .fault => .fault
  else if pos.current = (end_ l).current then
    match push_back h l value with
    | .ok (h1, l1) _ => .ok (h1, l1) ⟨l1.tail⟩
    | .throw e s => .throw e s
    | .fault => .fault
  else
    match lookup h pos.current with
    | none => .fault
    | some pn =>
      let newNode : Nat := h.length
      let h1 : Heap T := h ++ [some ⟨value, pn.prev, pos.current⟩]
      match lookup h1 pos.current with
      | none => .fault
      | some pn1 =>
        match setNext h1 pn1.prev (some newNode) with
        | none => .fault
        | some h2 =>
          match setPrev h2 pos.current (some newNode) with
          | none => .fault
          | some h3 => .ok (h3, { l with count := l.count + 1 }) ⟨some newNode⟩

/-- The member `erase(pos)`. -/
def erase {T : Type} (h : Heap T) (l : LList) (pos : BiDirectionalIterator) :
    Res (Heap T × LList) BiDirectionalIterator :=
  if pos.current = (end_ l).current then .ok (h, l) (end_ l)
  else if pos.current = l.head then
    match pop_front h l with
    | .ok (h1, l1) _ => .ok (h1, l1) (begin l1)
    | .throw e s => .throw e s
    | .fault => .fault
  else if pos.current = l.tail then
    match pop_back h l with
    | .ok (h1, l1) _ => .ok (h1, l1) (end_ l1)
    | .throw e s => .throw e s
    | .fault => .fault
  else
    match lookup h pos.current with
    | none => .fault
    | some pos_del =>
      let prev := pos_del.prev
      let next := pos_del.next
      match setNext h prev next with
      | none => .fault
      | some h1 =>
        match setPrev h1 next prev with
        | none => .fault
        | some h2 =>
          match free h2 pos.current with
          | none => .fault
          | some h3 => .ok (h3, { l with count := l.count - 1 }) ⟨next⟩

/-- The member `swap(other)`: the pair is `(*this, other)` after the call. -/
def swap (l other : LList) : LList × LList :=
  let temp_head := l.head
  let temp_tail := l.tail
  let temp_count := l.count
  (⟨other.head, other.tail, other.count⟩, ⟨temp_head, temp_tail, temp_count⟩)

/-- The state a call leaves behind: the one it returns with or throws with. -/
def Res.state {σ α : Type} : Res σ α → Option σ
  | .ok s _ => some s
  | .throw _ s => some s
  | .fault => none

/-- The constructor from an initializer list: `push_back` of each element in
order, on a default-constructed sequence (`l` is `mk_empty` at the call). -/
def from_list {T : Type} : Heap T → LList → List T → Res (Heap T × LList) Unit
  | h, l, [] => .ok (h, l) ()
  | h, l, value :: rest =>
    match push_back h l value with
    | .ok (h1, l1) _ => from_list h1 l1 rest
    | .throw e s => .throw e s
    | .fault => .fault

/-- The loop shared by the copy constructor and copy-assignment:
`while (traverse != nullptr) { push_back(traverse -> data); traverse = traverse -> next; }`,
at most `fuel` rounds; `none` when the fuel runs out. -/
def copyLoop {T : Type} : Nat → Heap T → LList → Ptr → Option (Res (Heap T × LList) Unit)
  | 0, _, _, _ => none
  | fuel + 1, h, l, traverse =>
    if traverse ≠ none then
      match lookup h traverse with
      | none => some .fault
      | some n =>
        match push_back h l n.data with
        | .ok (h1, l1) _ =>
          match lookup h1 traverse with
          | none => some .fault
          | some n1 => copyLoop fuel h1 l1 n1.next
        | .throw e s => some (.throw e s)
        | .fault => some .fault
    else some (.ok (h, l) ())

/-- The copy constructor `LList(const LList& other)`; the state is the heap and
the new sequence. -/
def copy_ctor {T : Type} (fuel : Nat) (h : Heap T) (other : LList) :
    Option (Res (Heap T × LList) Unit) :=
  copyLoop fuel h mk_empty other.head

/-- The copy-assignment `operator=(const LList& other)`; `distinct` is the
outcome of the test `this != &other`. -/
def copy_assign {T : Type} (fuel : Nat) (h : Heap T) (l other : LList) (distinct : Bool) :
    Option (Res (Heap T × LList) Unit) :=
  if distinct then
    match clear h l with
    | .ok (h1, l1) _ => copyLoop fuel h1 l1 other.head
    | .throw e s => some (.throw e s)
    | .fault => some .fault
  else some (.ok (h, l) ())

/-- The move constructor `LList(LList&& other)`: the new sequence and `other`
after the call. -/
def move_ctor (other : LList) : LList × LList :=
  (⟨other.head, other.tail, other.count⟩, ⟨none, none, 0⟩)

/-- The move-assignment `operator=(LList&& other)`; the state is the heap,
`*this` and `other`; `distinct` is the outcome of the test `this != &other`. -/
def move_assign {T : Type} (h : Heap T) (l other : LList) (distinct : Bool) :
    Res (Heap T × LList × LList) Unit :=
  if distinct then
    match clear h l with
    | .ok (h1, _) _ => .ok (h1, ⟨other.head, other.tail, other.count⟩, ⟨none, none, 0⟩) ()
    | .throw e (h1, l1) => .throw e (h1, l1, other)
    | .fault => .fault
  else .ok (h, l, other) ()

/-- The iterator `operator==`. -/
def it_eq (a rhs : BiDirectionalIterator) : Bool := a.current == rhs.current

/-- The iterator `operator!=`. -/
def it_ne (a rhs : BiDirectionalIterator) : Bool := a.current != rhs.current

/-- The iterator `operator++()`: the state is the iterator, the value the
reference `*this` it returns. -/
def preinc {T : Type} (h : Heap T) (it : BiDirectionalIterator) :
    Res BiDirectionalIterator BiDirectionalIterator :=
  if it.current ≠ none then
    match lookup h it.current with
    | none => .fault
    | some n => .ok ⟨n.next⟩ ⟨n.next⟩
  else .ok it it

/-- The iterator `operator++(int)`. -/
def postinc {T : Type} (h : Heap T) (it : BiDirectionalIterator) :
    Res BiDirectionalIterator BiDirectionalIterator :=
  let temp_iterator := it
  match preinc h it with
  | .ok it1 _ => .ok it1 temp_iterator
  | .throw e s => .throw e s
  | .fault => .fault

/-- The iterator `operator--()`. -/
def predec {T : Type} (h : Heap T) (it : BiDirectionalIterator) :
    Res BiDirectionalIterator BiDirectionalIterator :=
  if it.current ≠ none then
    match lookup h it.current with
    | none => .fault
    | some n => .ok ⟨n.prev⟩ ⟨n.prev⟩
  else .ok it it

/-- The iterator `operator--(int)`. -/
def postdec {T : Type} (h : Heap T) (it : BiDirectionalIterator) :
    Res BiDirectionalIterator BiDirectionalIterator :=
  let temp := it
  if it.current = none then .throw .out_of_range it
  else
    match lookup h it.current with
    | none => .fault
    | some n =>
      if n.prev = none then .throw .out_of_range it
      else .ok ⟨n.prev⟩ temp

/-- The iterator `operator*`. -/
def deref {T : Type} (h : Heap T) (it : BiDirectionalIterator) :
    Res BiDirectionalIterator T :=
  if it.current = none then .throw .out_of_range it
  else
    match lookup h it.current with
    | none => .fault
    | some n => .ok it n.data

/-- The iterator `operator->`. -/
def arrow (it : BiDirectionalIterator) : Ptr := it.current

/-- The iterator `operator++()` applied `k` times in a row. -/
def preinc_times {T : Type} (h : Heap T) :
    Nat → BiDirectionalIterator → Res BiDirectionalIterator BiDirectionalIterator
  | 0, it => .ok it it
  | k + 1, it =>
    match preinc h it with
    | .ok it1 _ => preinc_times h k it1
    | .throw e s => .throw e s
    | .fault => .fault

/-- The loop of the sequence `operator==`:
`while (p_lhs != lhs.end() && is_equal) { is_equal = (*p_lhs == *p_rhs); p_lhs++; p_rhs++; }`
followed by `return is_equal`; at most `fuel` tests of the loop condition, `none`
when the fuel runs out.  The operands of `*p_lhs == *p_rhs` are read left first. -/
def eqLoop {T : Type} [BEq T] (h : Heap T) (lhs : LList) :
    Nat → BiDirectionalIterator → BiDirectionalIterator → Bool → Option (Res Unit Bool)
  | 0, _, _, _ => none
  | fuel + 1, p_lhs, p_rhs, is_equal =>
    if it_ne p_lhs (end_ lhs) && is_equal then
      match deref h p_lhs with
      | .fault => some .fault
      | .throw e _ => some (.throw e ())
      | .ok _ x =>
        match deref h p_rhs with
        | .fault => some .fault
        | .throw e _ => some (.throw e ())
        | .ok _ y =>
          match postinc h p_lhs with
          | .fault => some .fault
          | .throw e _ => some (.throw e ())
          | .ok p_lhs1 _ =>
            match postinc h p_rhs with
            | .fault => some .fault
            | .throw e _ => some (.throw e ())
            | .ok p_rhs1 _ => eqLoop h lhs fuel p_lhs1 p_rhs1 (x == y)
    else some (.ok () is_equal)

/-- The free `operator==` on sequences. -/
def list_eq {T : Type} [BEq T] (fuel : Nat) (h : Heap T) (lhs rhs : LList) :
    Option (Res Unit Bool) :=
  eqLoop h lhs fuel (begin lhs) (begin rhs) (size lhs == size rhs)

/-- The free `operator!=` on sequences: `!(lhs == rhs)`. -/
def list_ne {T : Type} [BEq T] (fuel : Nat) (h : Heap T) (lhs rhs : LList) :
    Option (Res Unit Bool) :=
  match list_eq fuel h lhs rhs with
  | none => none
  | some (.ok s b) => some (.ok s (!b))
  | some (.throw e s) => some (.throw e s)
  | some .fault => some .fault

/-- A call a client makes on a sequence; a cursor argument is given by the
index of its position, an index past the last node meaning `end()`. -/
inductive Call (T : Type) where
  | push_back (value : T)
  | push_front (value : T)
  | pop_back
  | pop_front
  | insert (i : Nat) (value : T)
  | erase (i : Nat)
  | clear
deriving DecidableEq

/-! ## Chains, invariants and ownership -/

/-- The nodes met by a forward traversal from `p` (`it++` until `nullptr`), each
with its element; at most `fuel` of them. -/
def walk {T : Type} (h : Heap T) : Nat → Ptr → List (Nat × T)
  | 0, _ => []
  | _ + 1, none => []
  | fuel + 1, some a =>
    match lookup h (some a) with
    | none => []
    | some n => (a, n.data) :: walk h fuel n.next

/-- The chain of a sequence: the nodes reachable from `head` by `next` links.  A
chain of live nodes without a repetition has at most `h.length` nodes. -/
def cells {T : Type} (h : Heap T) (l : LList) : List (Nat × T) :=
  walk h h.length l.head

/-- The addresses of the nodes of the chain. -/
def nodes {T : Type} (h : Heap T) (l : LList) : List Nat :=
  (cells h l).map Prod.fst

/-- The elements of the sequence in traversal order. -/
def elements {T : Type} (h : Heap T) (l : LList) : List T :=
  (cells h l).map Prod.snd

/-- Follow the link `f` exactly `k` times from `p`; `none` when a step would go
through a null or dangling pointer. -/
def follow {T : Type} (h : Heap T) (f : Node T → Ptr) : Nat → Ptr → Option Ptr
  | 0, p => some p
  | _ + 1, none => none
  | k + 1, some a =>
    match lookup h (some a) with
    | none => none
    | some n => follow h f k (f n)

/-- The value of `p -> prev`, when `p` can be dereferenced. -/
def prevAt {T : Type} (h : Heap T) (p : Ptr) : Option Ptr :=
  (lookup h p).map Node.prev

/-- The value of `p -> next`, when `p` can be dereferenced. -/
def nextAt {T : Type} (h : Heap T) (p : Ptr) : Option Ptr :=
  (lookup h p).map Node.next

/-- Invariant 1: `count == 0` iff `head` and `tail` are both absent. -/
def Inv1 (l : LList) : Prop :=
  l.count = 0 ↔ (l.head = none ∧ l.tail = none)

/-- Invariant 2: when `count > 0`, `head -> prev` and `tail -> next` are
absent. -/
def Inv2 {T : Type} (h : Heap T) (l : LList) : Prop :=
  0 < l.count → prevAt h l.head = some none ∧ nextAt h l.tail = some none

/-- Invariant 3, link symmetry: `n.prev.next == n` for every node of the chain
other than `head`, `n.next.prev == n` for every one other than `tail`. -/
def Inv3 {T : Type} (h : Heap T) (l : LList) : Prop :=
  ∀ a ∈ nodes h l,
    (some a ≠ l.head → (prevAt h (some a)).bind (nextAt h) = some (some a)) ∧
    (some a ≠ l.tail → (nextAt h (some a)).bind (prevAt h) = some (some a))

/-- Invariant 4: `count` steps along `next` from `head` end at the absent link,
the last node met being `tail`; `count` steps along `prev` from `tail` end at
the absent link, the last node met being `head`. -/
def Inv4 {T : Type} (h : Heap T) (l : LList) : Prop :=
  follow h Node.next l.count l.head = some none ∧
  (0 < l.count → follow h Node.next (l.count - 1) l.head = some l.tail) ∧
  follow h Node.prev l.count l.tail = some none ∧
  (0 < l.count → follow h Node.prev (l.count - 1) l.tail = some l.head)

/-- The four sequence invariants of the data model. -/
def Inv {T : Type} (h : Heap T) (l : LList) : Prop :=
  Inv1 l ∧ Inv2 h l ∧ Inv3 h l ∧ Inv4 h l

instance {T : Type} (h : Heap T) (l : LList) : Decidable (Inv h l) := by
  unfold Inv Inv1 Inv2 Inv3 Inv4; infer_instance

/-- A cursor that is a live position of the sequence, or `end()`. -/
def IsPos {T : Type} (h : Heap T) (l : LList) (pos : BiDirectionalIterator) : Prop :=
  pos = end_ l ∨ ∃ a ∈ nodes h l, pos.current = some a

instance {T : Type} (h : Heap T) (l : LList) (pos : BiDirectionalIterator) :
    Decidable (IsPos h l pos) := by
  unfold IsPos; infer_instance

/-- The pointer to the first cell of `cs`, or `n` when there is none. -/
def firstPtr {T : Type} (cs : List (Nat × T)) (n : Ptr) : Ptr :=
  match cs with
  | [] => n
  | c :: _ => some c.1

/-- The pointer to the last cell of `cs`, or `p` when there is none. -/
def lastPtr {T : Type} (p : Ptr) (cs : List (Nat × T)) : Ptr :=
  match cs with
  | [] => p
  | c :: rest => lastPtr (some c.1) rest

/-- A doubly linked segment: the cells `cs` are linked in this order, the first
one back to `p`, the last one on to `n`. -/
def dlseg {T : Type} (h : Heap T) : Ptr → List (Nat × T) → Ptr → Prop
  | _, [], _ => True
  | p, c :: rest, n =>
    lookup h (some c.1) = some ⟨c.2, p, firstPtr rest n⟩ ∧ dlseg h (some c.1) rest n

/-- The sequence `l` owns exactly the cells `cs`, in this order. -/
def Owns {T : Type} (h : Heap T) (l : LList) (cs : List (Nat × T)) : Prop :=
  (cs.map Prod.fst).Nodup ∧ l.head = firstPtr cs none ∧ l.tail = lastPtr none cs ∧
  l.count = cs.length ∧ dlseg h none cs none

/-- The writes of a call stay inside the cells `cs` and fresh addresses. -/
def Frame {T : Type} (h h1 : Heap T) (cs : List (Nat × T)) : Prop :=
  h.length ≤ h1.length ∧
  ∀ a, a < h.length → a ∉ cs.map Prod.fst → lookup h1 (some a) = lookup h (some a)

/-- The cursor on the node at index `i` of the chain, `end()` when the chain has
no such node. -/
def cursorAt {T : Type} (h : Heap T) (l : LList) (i : Nat) : BiDirectionalIterator :=
  ⟨(nodes h l)[i]?⟩

/-- A heap that holds the sequence `[0, 1, 2]` (built by `push_back(1)`,
`push_back(2)`, `push_front(0)`) and nothing else. -/
def exHeap : Heap Int :=
  [some ⟨1, some 2, some 1⟩, some ⟨2, some 0, none⟩, some ⟨0, none, some 0⟩]

/-- The sequence `[0, 1, 2]` of `exHeap`. -/
def exList : LList := ⟨some 2, some 1, 3⟩

/-- The heap `exHeap` with one more node, which holds a second sequence `[5]`. -/
def exHeap2 : Heap Int :=
  [some ⟨1, some 2, some 1⟩, some ⟨2, some 0, none⟩, some ⟨0, none, some 0⟩,
    some ⟨5, none, none⟩]

/-- The sequence `[5]` of `exHeap2`. -/
def exOther : LList := ⟨some 3, some 3, 1⟩

/-- Make one call on the sequence; the outcome keeps the state only. -/
def Call.run {T : Type} (h : Heap T) (l : LList) : Call T → Res (Heap T × LList) Unit
  | .push_back value => DLL.push_back h l value
  | .push_front value => DLL.push_front h l value
  | .pop_back => DLL.pop_back h l
  | .pop_front => DLL.pop_front h l
  | .insert i value =>
    match DLL.insert h l (cursorAt h l i) value with
    | .ok s _ => .ok s ()
    | .throw e s => .throw e s
    | .fault => .fault
  | .erase i =>
    match DLL.erase h l (cursorAt h l i) with
    | .ok s _ => .ok s ()
    | .throw e s => .throw e s
    | .fault => .fault
  | .clear => DLL.clear h l

/-- Make the calls one after the other, a caller that catches what is thrown:
the state after the last call, `none` after undefined behaviour. -/
def runCalls {T : Type} : List (Call T) → Heap T × LList → Option (Heap T × LList)
  | [], s => some s
  | c :: rest, s =>
    match (c.run s.1 s.2).state with
    | none => none
    | some s1 => runCalls rest s1

/-- Every pair of elements at the same index compares equal. -/
def allEq {T : Type} [BEq T] (xs ys : List T) : Bool :=
  (List.zipWith (fun x y => x == y) xs ys).all id

/-- In the heap `h1` the sequence `c` is an independent copy of what the
sequence `a` was in the heap `h`: `c` is well-formed and has the elements of `a` in
the same order, `a` is well-formed, its nodes hold what they held, its chain is
the same, and whatever calls are then made on `c`, they run without undefined
behaviour and leave `a` well-formed with the same chain of nodes and elements. -/
def CopyOf {T : Type} (h : Heap T) (a : LList) (h1 : Heap T) (c : LList) : Prop :=
  Inv h1 c ∧ elements h1 c = elements h a ∧ size c = (elements h a).length ∧
  Inv h1 a ∧ (∀ x ∈ nodes h a, lookup h1 (some x) = lookup h (some x)) ∧
  cells h1 a = cells h a ∧
  ∀ calls : List (Call T), ∃ h2 c2, runCalls calls (h1, c) = some (h2, c2) ∧
    Inv h2 c2 ∧ Inv h2 a ∧ cells h2 a = cells h a ∧ elements h2 a = elements h a


/-! # Lemmas and theorems -/

/-! ## The free store -/

theorem lookup_lt {T : Type} {h : Heap T} {a : Nat} {n : Node T}
    (hl : lookup h (some a) = some n) : a < h.length := by
  by_contra hc
  have : h[a]? = none := List.getElem?_eq_none (by omega)
  simp [lookup, this] at hl

theorem lookup_append_lt {T : Type} (h : Heap T) (x : Heap T) {a : Nat}
    (ha : a < h.length) : lookup (h ++ x) (some a) = lookup h (some a) := by
  simp [lookup, List.getElem?_append_left ha]

theorem lookup_append_new {T : Type} (h : Heap T) (n : Node T) :
    lookup (h ++ [some n]) (some h.length) = some n := by
  simp [lookup]

theorem lookup_set_ne {T : Type} (h : Heap T) (x : Option (Node T)) {a b : Nat}
    (hab : a ≠ b) : lookup (h.set b x) (some a) = lookup h (some a) := by
  simp [lookup, List.getElem?_set_ne (Ne.symm hab)]

theorem lookup_set_eq {T : Type} (h : Heap T) (x : Option (Node T)) {b : Nat}
    (hb : b < h.length) : lookup (h.set b x) (some b) = x := by
  simp [lookup, hb]

theorem setNext_eq {T : Type} {h : Heap T} {a : Nat} {n : Node T}
    (hl : lookup h (some a) = some n) (q : Ptr) :
    setNext h (some a) q = some (h.set a (some { n with next := q })) := by
  simp [setNext, hl]

theorem setPrev_eq {T : Type} {h : Heap T} {a : Nat} {n : Node T}
    (hl : lookup h (some a) = some n) (q : Ptr) :
    setPrev h (some a) q = some (h.set a (some { n with prev := q })) := by
  simp [setPrev, hl]

theorem free_eq {T : Type} {h : Heap T} {a : Nat} {n : Node T}
    (hl : lookup h (some a) = some n) :
    free h (some a) = some (h.set a none) := by
  simp [free, hl]

/-! ## Segments -/

@[simp] theorem firstPtr_nil {T : Type} (n : Ptr) : firstPtr ([] : List (Nat × T)) n = n := rfl

@[simp] theorem firstPtr_cons {T : Type} (c : Nat × T) (cs : List (Nat × T)) (n : Ptr) :
    firstPtr (c :: cs) n = some c.1 := rfl

@[simp] theorem lastPtr_nil {T : Type} (p : Ptr) : lastPtr p ([] : List (Nat × T)) = p := rfl

@[simp] theorem lastPtr_cons {T : Type} (c : Nat × T) (cs : List (Nat × T)) (p : Ptr) :
    lastPtr p (c :: cs) = lastPtr (some c.1) cs := rfl

theorem firstPtr_append {T : Type} (xs ys : List (Nat × T)) (n : Ptr) :
    firstPtr (xs ++ ys) n = firstPtr xs (firstPtr ys n) := by
  cases xs <;> simp

theorem lastPtr_append {T : Type} (xs ys : List (Nat × T)) (p : Ptr) :
    lastPtr p (xs ++ ys) = lastPtr (lastPtr p xs) ys := by
  induction xs generalizing p with
  | nil => simp
  | cons c xs ih => simp [ih]

theorem lastPtr_ne_nil {T : Type} {cs : List (Nat × T)} (hne : cs ≠ []) (p q : Ptr) :
    lastPtr p cs = lastPtr q cs := by
  cases cs with
  | nil => exact absurd rfl hne
  | cons c cs => simp

theorem lastPtr_mem {T : Type} (cs : List (Nat × T)) (p : Ptr) :
    lastPtr p cs = p ∨ ∃ c ∈ cs, lastPtr p cs = some c.1 := by
  induction cs generalizing p with
  | nil => simp
  | cons c cs ih =>
    right
    rcases ih (some c.1) with h1 | ⟨d, hd, h2⟩
    · exact ⟨c, by simp, by simpa using h1⟩
    · exact ⟨d, by simp [hd], by simpa using h2⟩

@[simp] theorem dlseg_nil {T : Type} (h : Heap T) (p n : Ptr) :
    dlseg h p ([] : List (Nat × T)) n := trivial

theorem dlseg_cons {T : Type} (h : Heap T) (p n : Ptr) (c : Nat × T) (cs : List (Nat × T)) :
    dlseg h p (c :: cs) n ↔
      (lookup h (some c.1) = some ⟨c.2, p, firstPtr cs n⟩ ∧ dlseg h (some c.1) cs n) :=
  Iff.rfl

theorem dlseg_append {T : Type} (h : Heap T) (p n : Ptr) (xs ys : List (Nat × T)) :
    dlseg h p (xs ++ ys) n ↔
      (dlseg h p xs (firstPtr ys n) ∧ dlseg h (lastPtr p xs) ys n) := by
  induction xs generalizing p with
  | nil => simp
  | cons c xs ih =>
    simp only [List.cons_append, dlseg_cons, ih, firstPtr_append, lastPtr_cons]
    tauto

theorem dlseg_frame {T : Type} {h h1 : Heap T} {p n : Ptr} {cs : List (Nat × T)}
    (hf : ∀ c ∈ cs, lookup h1 (some c.1) = lookup h (some c.1))
    (hd : dlseg h p cs n) : dlseg h1 p cs n := by
  induction cs generalizing p with
  | nil => trivial
  | cons c cs ih =>
    rw [dlseg_cons] at hd ⊢
    refine ⟨?_, ih (fun d hd => hf d (by simp [hd])) hd.2⟩
    rw [hf c (by simp)]; exact hd.1

theorem dlseg_lookup {T : Type} {h : Heap T} {p n : Ptr} {cs : List (Nat × T)}
    (hd : dlseg h p cs n) : ∀ c ∈ cs, ∃ m, lookup h (some c.1) = some m ∧ m.data = c.2 := by
  induction cs generalizing p with
  | nil => simp
  | cons c cs ih =>
    rw [dlseg_cons] at hd
    intro d hmem
    rcases List.mem_cons.1 hmem with rfl | hmem
    · exact ⟨_, hd.1, rfl⟩
    · exact ih hd.2 d hmem

theorem dlseg_lt {T : Type} {h : Heap T} {p n : Ptr} {cs : List (Nat × T)}
    (hd : dlseg h p cs n) : ∀ a ∈ cs.map Prod.fst, a < h.length := by
  intro a ha
  obtain ⟨c, hc, rfl⟩ := List.mem_map.1 ha
  obtain ⟨m, hm, _⟩ := dlseg_lookup hd c hc
  exact lookup_lt hm


theorem Owns.lt {T : Type} {h : Heap T} {l : LList} {cs : List (Nat × T)}
    (ho : Owns h l cs) : ∀ a ∈ cs.map Prod.fst, a < h.length :=
  dlseg_lt ho.2.2.2.2

theorem owns_nil {T : Type} (h : Heap T) : Owns h mk_empty ([] : List (Nat × T)) := by
  simp [Owns, mk_empty]

/-- On a well-linked sequence `push_back` links a fresh node after the last
cell. -/
theorem push_back_owns {T : Type} {h : Heap T} {l : LList} {cs : List (Nat × T)}
    (ho : Owns h l cs) (v : T) :
    ∃ h1 l1, push_back h l v = .ok (h1, l1) () ∧ Owns h1 l1 (cs ++ [(h.length, v)]) ∧
      Frame h h1 cs := by
  obtain ⟨hnd, hhead, htail, hcount, hseg⟩ := ho
  have hlt := dlseg_lt hseg
  rcases List.eq_nil_or_concat cs with rfl | ⟨xs, c, rfl⟩
  · simp only [firstPtr_nil, lastPtr_nil] at hhead htail
    refine ⟨h ++ [some ⟨v, none, none⟩], ⟨some h.length, some h.length, l.count + 1⟩, ?_, ?_, ?_⟩
    · simp [push_back, hhead, htail]
    · refine ⟨by simp, by simp, by simp, by simpa using hcount, ?_⟩
      simp [dlseg_cons, lookup_append_new]
    · exact ⟨by simp, fun a ha _ => lookup_append_lt h _ ha⟩
  · obtain ⟨t, d⟩ := c
    rw [List.concat_eq_append] at *
    rw [dlseg_append] at hseg
    obtain ⟨hxs, hlast⟩ := hseg
    simp only [dlseg_cons, firstPtr_nil, dlseg_nil, and_true, firstPtr_cons] at hlast hxs
    have htail1 : l.tail = some t := by simpa [lastPtr_append] using htail
    have hhead1 : l.head ≠ none := by
      rw [hhead, firstPtr_append]; cases xs <;> simp
    have htlt : t < h.length := lookup_lt hlast
    have hl1 : lookup (h ++ [some ⟨v, l.tail, none⟩]) (some t) = some ⟨d, lastPtr none xs, none⟩ := by
      rw [lookup_append_lt h _ htlt]; exact hlast
    refine ⟨(h ++ [some (Node.mk v l.tail none)]).set t (some ⟨d, lastPtr none xs, some h.length⟩),
      ⟨l.head, some h.length, l.count + 1⟩, ?_, ?_, ?_⟩
    · simp [push_back, htail1, hhead1, setNext_eq (htail1 ▸ hl1)]
    · have hnd1 : t ∉ xs.map Prod.fst := by
        simp only [List.map_append, List.map_cons, List.map_nil] at hnd
        have := (List.nodup_append.1 hnd).2.2
        intro hx; exact this hx (by simp) 
      refine ⟨?_, ?_, ?_, ?_, ?_⟩
      · simp only [List.map_append, List.map_cons, List.map_nil] at hnd ⊢
        rw [List.nodup_append]
        refine ⟨hnd, by simp, ?_⟩
        intro a ha hb
        simp only [List.mem_singleton] at hb
        have := hlt a (by simpa using ha)
        omega
      · simp only [firstPtr_append] at hhead ⊢
        cases xs <;> simpa using hhead
      · simp [lastPtr_append]
      · simp only [List.length_append, List.length_cons, List.length_nil] at hcount ⊢
        omega
      · rw [List.append_assoc, dlseg_append]
        constructor
        · refine dlseg_frame ?_ hxs
          intro c hc
          have hne : c.1 ≠ t := fun e => hnd1 (e ▸ List.mem_map_of_mem _ hc)
          rw [lookup_set_ne _ _ hne, lookup_append_lt]
          exact hlt _ (by simp [List.mem_map_of_mem _ hc]) 
        · simp only [List.singleton_append, dlseg_cons, firstPtr_cons, firstPtr_nil, dlseg_nil,
            and_true]
          constructor
          · rw [lookup_set_eq _ _ (by simp; omega)]
          · rw [lookup_set_ne _ _ (by omega), htail1]
            exact lookup_append_new h _
    · refine ⟨by simp, fun a ha hn => ?_⟩
      have hne : a ≠ t := by
        intro e; apply hn; simp [e]
      rw [lookup_set_ne _ _ hne, lookup_append_lt _ _ ha]


theorem nodup_snoc (l : List Nat) (a : Nat) : (l ++ [a]).Nodup ↔ (a ∉ l ∧ l.Nodup) := by
  rw [List.nodup_append_comm]; simp

theorem lastPtr_some_ne_none {T : Type} (cs : List (Nat × T)) (a : Nat) :
    lastPtr (some a) cs ≠ none := by
  rcases lastPtr_mem cs (some a) with h1 | ⟨c, _, h2⟩
  · simp [h1]
  · simp [h2]

/-- On a well-linked sequence `push_front` links a fresh node before the first
cell. -/
theorem push_front_owns {T : Type} {h : Heap T} {l : LList} {cs : List (Nat × T)}
    (ho : Owns h l cs) (v : T) :
    ∃ h1 l1, push_front h l v = .ok (h1, l1) () ∧ Owns h1 l1 ((h.length, v) :: cs) ∧
      Frame h h1 cs := by
  obtain ⟨hnd, hhead, htail, hcount, hseg⟩ := ho
  have hlt := dlseg_lt hseg
  cases cs with
  | nil =>
    simp only [firstPtr_nil, lastPtr_nil] at hhead htail
    refine ⟨h ++ [some ⟨v, none, none⟩], ⟨some h.length, some h.length, l.count + 1⟩, ?_, ?_, ?_⟩
    · simp [push_front, hhead, htail]
    · refine ⟨by simp, by simp, by simp, by simpa using hcount, ?_⟩
      simp [dlseg_cons, lookup_append_new]
    · exact ⟨by simp, fun a ha _ => lookup_append_lt h _ ha⟩
  | cons c ys =>
    obtain ⟨t, d⟩ := c
    rw [dlseg_cons] at hseg
    obtain ⟨hfirst, hys⟩ := hseg
    simp only [firstPtr_cons, lastPtr_cons] at hhead htail hfirst hys
    have htail1 : l.tail ≠ none := htail ▸ lastPtr_some_ne_none ys t
    have htlt : t < h.length := lookup_lt hfirst
    have hl1 : lookup (h ++ [some (Node.mk v none l.head)]) (some t) =
        some ⟨d, none, firstPtr ys none⟩ := by
      rw [lookup_append_lt h _ htlt]; exact hfirst
    simp only [List.map_cons, List.nodup_cons] at hnd
    refine ⟨(h ++ [some (Node.mk v none l.head)]).set t (some ⟨d, some h.length, firstPtr ys none⟩),
      ⟨some h.length, l.tail, l.count + 1⟩, ?_, ?_, ?_⟩
    · simp [push_front, hhead, htail1, setPrev_eq (hhead ▸ hl1)]
    · refine ⟨?_, ?_, ?_, ?_, ?_⟩
      · simp only [List.map_cons, List.nodup_cons]
        refine ⟨?_, hnd⟩
        intro hm
        have := hlt _ hm
        omega
      · simp
      · simpa using htail
      · simp only [List.length_cons] at hcount ⊢
        omega
      · simp only [dlseg_cons, firstPtr_cons]
        refine ⟨?_, ?_, ?_⟩
        · rw [lookup_set_ne _ _ (by omega), hhead]
          exact lookup_append_new h _
        · rw [lookup_set_eq _ _ (by simp; omega)]
        · refine dlseg_frame ?_ hys
          intro c hc
          have hne : c.1 ≠ t := fun e => hnd.1 (e ▸ List.mem_map_of_mem _ hc)
          rw [lookup_set_ne _ _ hne, lookup_append_lt]
          exact hlt _ (by simp [List.mem_map_of_mem _ hc])
    · refine ⟨by simp, fun a ha hn => ?_⟩
      have hne : a ≠ t := by
        intro e; apply hn; simp [e]
      rw [lookup_set_ne _ _ hne, lookup_append_lt _ _ ha]

/-- On a well-linked non-empty sequence `pop_front` unlinks and releases the
first cell. -/
theorem pop_front_owns {T : Type} {h : Heap T} {l : LList} {c : Nat × T}
    {cs : List (Nat × T)} (ho : Owns h l (c :: cs)) :
    ∃ h1 l1, pop_front h l = .ok (h1, l1) () ∧ Owns h1 l1 cs ∧ Frame h h1 (c :: cs) ∧
      lookup h1 (some c.1) = none := by
  obtain ⟨hnd, hhead, htail, hcount, hseg⟩ := ho
  obtain ⟨a, x⟩ := c
  rw [dlseg_cons] at hseg
  obtain ⟨hfirst, hys⟩ := hseg
  simp only [firstPtr_cons, lastPtr_cons, List.length_cons] at hhead htail hfirst hys hcount
  simp only [List.map_cons, List.nodup_cons] at hnd
  have halt : a < h.length := lookup_lt hfirst
  have hemp : empty l = false := by simp [empty, hcount]
  cases cs with
  | nil =>
    refine ⟨h.set a none, ⟨none, none, l.count - 1⟩, ?_, ?_, ?_, ?_⟩
    · simp [pop_front, hemp, hhead, hfirst, free_eq hfirst]
    · refine ⟨by simp, by simp, by simp, by simp [hcount], trivial⟩
    · refine ⟨by simp, fun b _ hn => ?_⟩
      exact lookup_set_ne _ _ (by intro e; apply hn; simp [e])
    · exact lookup_set_eq _ _ halt
  | cons c2 ys =>
    obtain ⟨b, y⟩ := c2
    rw [dlseg_cons] at hys
    obtain ⟨hsecond, hys⟩ := hys
    simp only [firstPtr_cons, lastPtr_cons] at htail hfirst hsecond hys
    simp only [List.map_cons, List.nodup_cons, List.mem_cons, not_or] at hnd
    have hblt : b < h.length := lookup_lt hsecond
    have hab : a ≠ b := hnd.1.1
    have hl1 : lookup (h.set b (some ⟨y, none, firstPtr ys none⟩)) (some a) =
        some ⟨x, none, some b⟩ := by
      rw [lookup_set_ne _ _ hab]; exact hfirst
    refine ⟨(h.set b (some ⟨y, none, firstPtr ys none⟩)).set a none,
      ⟨some b, l.tail, l.count - 1⟩, ?_, ?_, ?_, ?_⟩
    · simp [pop_front, hemp, hhead, hfirst, setPrev_eq hsecond, free_eq hl1]
    · refine ⟨?_, by simp, by simpa using htail, by simp [hcount], ?_⟩
      · simp only [List.map_cons, List.nodup_cons]; exact hnd.2
      · simp only [dlseg_cons]
        refine ⟨?_, ?_⟩
        · rw [lookup_set_ne _ _ (Ne.symm hab), lookup_set_eq _ _ hblt]
        · refine dlseg_frame ?_ hys
          intro c hc
          have hm := List.mem_map_of_mem Prod.fst hc
          have hne1 : c.1 ≠ a := fun e => hnd.1.2 (e ▸ hm)
          have hne2 : c.1 ≠ b := fun e => hnd.2.1 (e ▸ hm)
          rw [lookup_set_ne _ _ hne1, lookup_set_ne _ _ hne2]
    · refine ⟨by simp, fun d _ hn => ?_⟩
      simp only [List.map_cons, List.mem_cons, not_or] at hn
      rw [lookup_set_ne _ _ hn.1, lookup_set_ne _ _ hn.2.1]
    · exact lookup_set_eq _ _ (by simpa using halt)

/-- On a well-linked non-empty sequence `pop_back` unlinks and releases the
last cell. -/
theorem pop_back_owns {T : Type} {h : Heap T} {l : LList} {c : Nat × T}
    {cs : List (Nat × T)} (ho : Owns h l (cs ++ [c])) :
    ∃ h1 l1, pop_back h l = .ok (h1, l1) () ∧ Owns h1 l1 cs ∧ Frame h h1 (cs ++ [c]) ∧
      lookup h1 (some c.1) = none := by
  obtain ⟨hnd, hhead, htail, hcount, hseg⟩ := ho
  obtain ⟨a, x⟩ := c
  rw [dlseg_append] at hseg
  obtain ⟨hxs, hlast⟩ := hseg
  simp only [dlseg_cons, firstPtr_nil, dlseg_nil, and_true, firstPtr_cons] at hlast hxs
  simp only [lastPtr_append, lastPtr_cons, lastPtr_nil, List.length_append, List.length_cons,
    List.length_nil] at htail hcount
  have halt : a < h.length := lookup_lt hlast
  have hemp : empty l = false := by simp [empty, hcount]
  rcases List.eq_nil_or_concat cs with rfl | ⟨xs, c2, rfl⟩
  · refine ⟨h.set a none, ⟨none, none, l.count - 1⟩, ?_, ?_, ?_, ?_⟩
    · simp only [lastPtr_nil] at hlast
      simp [pop_back, hemp, htail, hlast, free_eq hlast]
    · refine ⟨by simp, by simp, by simp, by simp [hcount], trivial⟩
    · refine ⟨by simp, fun b _ hn => ?_⟩
      exact lookup_set_ne _ _ (by intro e; apply hn; simp [e])
    · exact lookup_set_eq _ _ halt
  · obtain ⟨b, y⟩ := c2
    rw [List.concat_eq_append] at *
    rw [dlseg_append] at hxs
    obtain ⟨hxs, hsecond⟩ := hxs
    simp only [dlseg_cons, firstPtr_nil, dlseg_nil, and_true, firstPtr_cons, lastPtr_append,
      lastPtr_cons, lastPtr_nil] at hsecond hxs hlast
    simp only [List.map_append, List.map_cons, List.map_nil, nodup_snoc, List.mem_append,
      List.mem_singleton, not_or] at hnd
    have hblt : b < h.length := lookup_lt hsecond
    have hab : a ≠ b := hnd.1.2
    have hl1 : lookup (h.set b (some ⟨y, lastPtr none xs, none⟩)) (some a) =
        some ⟨x, some b, none⟩ := by
      rw [lookup_set_ne _ _ hab]; exact hlast
    have hhead1 : l.head = firstPtr (xs ++ [(b, y)]) none := by
      rw [hhead]; simp only [firstPtr_append]; cases xs <;> simp
    refine ⟨(h.set b (some ⟨y, lastPtr none xs, none⟩)).set a none,
      ⟨l.head, some b, l.count - 1⟩, ?_, ?_, ?_, ?_⟩
    · simp [pop_back, hemp, htail, hlast, setNext_eq hsecond, free_eq hl1]
    · refine ⟨?_, hhead1, by simp [lastPtr_append], by simp [hcount], ?_⟩
      · simp only [List.map_append, List.map_cons, List.map_nil, nodup_snoc]
        exact hnd.2
      · rw [dlseg_append]
        simp only [dlseg_cons, firstPtr_cons, firstPtr_nil, dlseg_nil, and_true]
        refine ⟨?_, ?_⟩
        · refine dlseg_frame ?_ hxs
          intro c hc
          have hm := List.mem_map_of_mem Prod.fst hc
          have hne1 : c.1 ≠ a := fun e => hnd.1.1 (e ▸ hm)
          have hne2 : c.1 ≠ b := fun e => hnd.2.1 (e ▸ hm)
          rw [lookup_set_ne _ _ hne1, lookup_set_ne _ _ hne2]
        · rw [lookup_set_ne _ _ (Ne.symm hab), lookup_set_eq _ _ hblt]
    · refine ⟨by simp, fun d _ hn => ?_⟩
      simp only [List.map_append, List.map_cons, List.map_nil, List.mem_append,
        List.mem_singleton, not_or] at hn
      rw [lookup_set_ne _ _ hn.2, lookup_set_ne _ _ hn.1.2]
    · exact lookup_set_eq _ _ (by simpa using halt)


theorem firstPtr_snoc_mem {T : Type} (xs : List (Nat × T)) (b : Nat × T) (n : Ptr) :
    ∃ c ∈ xs ++ [b], firstPtr (xs ++ [b]) n = some c.1 := by
  cases xs with
  | nil => exact ⟨b, by simp, rfl⟩
  | cons c xs => exact ⟨c, by simp, rfl⟩

theorem lastPtr_cons_mem {T : Type} (d : Nat × T) (ys : List (Nat × T)) (p : Ptr) :
    ∃ c ∈ d :: ys, lastPtr p (d :: ys) = some c.1 := by
  rcases lastPtr_mem ys (some d.1) with h1 | ⟨c, hc, h2⟩
  · exact ⟨d, by simp, by simpa using h1⟩
  · exact ⟨c, by simp [hc], by simpa using h2⟩

/-- Linking a fresh node between two neighbours. -/
theorem insert_mid_owns {T : Type} {h : Heap T} {l : LList} {xs ys : List (Nat × T)}
    {b c : Nat × T} (ho : Owns h l (xs ++ [b] ++ c :: ys)) (v : T) :
    ∃ h1 l1, insert h l ⟨some c.1⟩ v = .ok (h1, l1) ⟨some h.length⟩ ∧
      Owns h1 l1 (xs ++ [b] ++ (h.length, v) :: c :: ys) ∧
      Frame h h1 (xs ++ [b] ++ c :: ys) := by
  obtain ⟨hnd, hhead, htail, hcount, hseg⟩ := ho
  have hlt := dlseg_lt hseg
  obtain ⟨bA, bD⟩ := b
  obtain ⟨cA, cD⟩ := c
  rw [dlseg_append, dlseg_append] at hseg
  obtain ⟨⟨hxs, hb⟩, hc⟩ := hseg
  simp only [dlseg_cons, firstPtr_cons, firstPtr_nil, dlseg_nil, and_true, lastPtr_append,
    lastPtr_cons, lastPtr_nil] at hxs hb hc
  obtain ⟨hc, hys⟩ := hc
  simp only [List.map_append, List.map_cons, List.map_nil, List.append_assoc,
    List.singleton_append] at hnd hlt
  have hnd0 := hnd
  rw [List.nodup_append] at hnd
  obtain ⟨hndx, hndr, hdisj⟩ := hnd
  simp only [List.nodup_cons, List.mem_cons, not_or] at hndr
  have hbx : bA ∉ xs.map Prod.fst := fun hm => hdisj hm (by simp)
  have hcx : cA ∉ xs.map Prod.fst := fun hm => hdisj hm (by simp)
  have hbc : bA ≠ cA := hndr.1.1
  have hblt : bA < h.length := lookup_lt hb
  have hclt : cA < h.length := lookup_lt hc
  have hheadne : (some cA : Ptr) ≠ l.head := by
    obtain ⟨e, he, hfe⟩ := firstPtr_snoc_mem xs (bA, bD) (firstPtr ((cA, cD) :: ys) none)
    rw [hhead, firstPtr_append, hfe]
    intro heq
    simp only [Option.some.injEq] at heq
    rcases List.mem_append.1 he with hx | hx
    · exact hcx (heq ▸ List.mem_map_of_mem Prod.fst hx)
    · simp only [List.mem_singleton] at hx
      subst hx
      exact hbc heq.symm
  have hl1 : lookup (h ++ [some (Node.mk v (some bA) (some cA))]) (some bA) =
      some ⟨bD, lastPtr none xs, some cA⟩ := by
    rw [lookup_append_lt h _ hblt]; exact hb
  have hl0 : lookup (h ++ [some (Node.mk v (some bA) (some cA))]) (some cA) =
      some ⟨cD, some bA, firstPtr ys none⟩ := by
    rw [lookup_append_lt h _ hclt]; exact hc
  have hl2 : lookup ((h ++ [some (Node.mk v (some bA) (some cA))]).set bA
      (some ⟨bD, lastPtr none xs, some h.length⟩)) (some cA) =
      some ⟨cD, some bA, firstPtr ys none⟩ := by
    rw [lookup_set_ne _ _ (Ne.symm hbc)]; exact hl0
  refine ⟨((h ++ [some (Node.mk v (some bA) (some cA))]).set bA
      (some ⟨bD, lastPtr none xs, some h.length⟩)).set cA
      (some ⟨cD, some h.length, firstPtr ys none⟩), { l with count := l.count + 1 }, ?_, ?_, ?_⟩
  · simp [insert, begin, end_, hheadne, hc, hl0, setNext_eq hl1, setPrev_eq hl2]
  · refine ⟨?_, ?_, ?_, ?_, ?_⟩
    · simp only [List.map_append, List.map_cons, List.map_nil, List.append_assoc,
        List.singleton_append]
      have : (h.length :: (xs.map Prod.fst ++ bA :: cA :: ys.map Prod.fst)).Nodup := by
        rw [List.nodup_cons]
        refine ⟨fun hm => ?_, hnd0⟩
        have := hlt _ hm
        omega
      have h2 := (@List.nodup_middle Nat h.length (xs.map Prod.fst ++ [bA])
        (cA :: ys.map Prod.fst)).2 (by simpa using this)
      simpa using h2
    · simp only [firstPtr_append] at hhead ⊢
      cases xs <;> simpa using hhead
    · simpa [lastPtr_append] using htail
    · simp only [List.length_append, List.length_cons, List.length_nil] at hcount ⊢
      omega
    · rw [dlseg_append, dlseg_append]
      simp only [dlseg_cons, firstPtr_cons, firstPtr_nil, dlseg_nil, and_true, lastPtr_append,
        lastPtr_cons, lastPtr_nil]
      refine ⟨⟨?_, ?_⟩, ?_, ?_, ?_⟩
      · refine dlseg_frame ?_ hxs
        intro e he
        have hm := List.mem_map_of_mem Prod.fst he
        have hne1 : e.1 ≠ bA := fun q => hbx (q ▸ hm)
        have hne2 : e.1 ≠ cA := fun q => hcx (q ▸ hm)
        rw [lookup_set_ne _ _ hne2, lookup_set_ne _ _ hne1, lookup_append_lt]
        exact hlt _ (by simp [hm])
      · rw [lookup_set_ne _ _ hbc, lookup_set_eq _ _ (by simp; omega)]
      · rw [lookup_set_ne _ _ (by omega), lookup_set_ne _ _ (by omega)]
        exact lookup_append_new h _
      · rw [lookup_set_eq _ _ (by simp; omega)]
      · refine dlseg_frame ?_ hys
        intro e he
        have hm := List.mem_map_of_mem Prod.fst he
        have hne1 : e.1 ≠ bA := fun q => hndr.1.2 (q ▸ hm)
        have hne2 : e.1 ≠ cA := fun q => hndr.2.1 (q ▸ hm)
        rw [lookup_set_ne _ _ hne2, lookup_set_ne _ _ hne1, lookup_append_lt]
        exact hlt _ (by simp [hm])
  · refine ⟨by simp, fun a ha hn => ?_⟩
    simp only [List.map_append, List.map_cons, List.map_nil, List.mem_append, List.mem_cons,
      List.mem_singleton, List.not_mem_nil, or_false, not_or] at hn
    rw [lookup_set_ne _ _ hn.2.1, lookup_set_ne _ _ hn.1.2, lookup_append_lt _ _ ha]

/-- Unlinking a node that has two neighbours. -/
theorem erase_mid_owns {T : Type} {h : Heap T} {l : LList} {xs ys : List (Nat × T)}
    {b c d : Nat × T} (ho : Owns h l (xs ++ [b] ++ c :: d :: ys)) :
    ∃ h1 l1, erase h l ⟨some c.1⟩ = .ok (h1, l1) ⟨some d.1⟩ ∧
      Owns h1 l1 (xs ++ [b] ++ d :: ys) ∧
      Frame h h1 (xs ++ [b] ++ c :: d :: ys) ∧ lookup h1 (some c.1) = none := by
  obtain ⟨hnd, hhead, htail, hcount, hseg⟩ := ho
  have hlt := dlseg_lt hseg
  obtain ⟨bA, bD⟩ := b
  obtain ⟨cA, cD⟩ := c
  obtain ⟨dA, dD⟩ := d
  rw [dlseg_append, dlseg_append] at hseg
  obtain ⟨⟨hxs, hb⟩, hc⟩ := hseg
  simp only [dlseg_cons, firstPtr_cons, firstPtr_nil, dlseg_nil, and_true, lastPtr_append,
    lastPtr_cons, lastPtr_nil] at hxs hb hc
  obtain ⟨hc, hd, hys⟩ := hc
  simp only [List.map_append, List.map_cons, List.map_nil, List.append_assoc,
    List.singleton_append] at hnd hlt
  have hnd0 := hnd
  rw [List.nodup_append] at hnd
  obtain ⟨hndx, hndr, hdisj⟩ := hnd
  simp only [List.nodup_cons, List.mem_cons, not_or] at hndr
  have hbx : bA ∉ xs.map Prod.fst := fun hm => hdisj hm (by simp)
  have hcx : cA ∉ xs.map Prod.fst := fun hm => hdisj hm (by simp)
  have hdx : dA ∉ xs.map Prod.fst := fun hm => hdisj hm (by simp)
  have hbc : bA ≠ cA := hndr.1.1
  have hbd : bA ≠ dA := hndr.1.2.1
  have hcd : cA ≠ dA := hndr.2.1.1
  have hblt : bA < h.length := lookup_lt hb
  have hclt : cA < h.length := lookup_lt hc
  have hdlt : dA < h.length := lookup_lt hd
  have hheadne : (some cA : Ptr) ≠ l.head := by
    obtain ⟨e, he, hfe⟩ := firstPtr_snoc_mem xs (bA, bD) (firstPtr ((cA, cD) :: (dA, dD) :: ys) none)
    rw [hhead, firstPtr_append, hfe]
    intro heq
    simp only [Option.some.injEq] at heq
    rcases List.mem_append.1 he with hx | hx
    · exact hcx (heq ▸ List.mem_map_of_mem Prod.fst hx)
    · simp only [List.mem_singleton] at hx
      subst hx
      exact hbc heq.symm
  have htailne : (some cA : Ptr) ≠ l.tail := by
    obtain ⟨e, he, hfe⟩ := lastPtr_cons_mem (dA, dD) ys (some cA)
    rw [htail, lastPtr_append, lastPtr_cons, hfe]
    intro heq
    simp only [Option.some.injEq] at heq
    rcases List.mem_cons.1 he with hx | hx
    · subst hx
      exact hcd heq
    · exact hndr.2.1.2 (heq ▸ List.mem_map_of_mem Prod.fst hx)
  have hl1 : lookup (h.set bA (some ⟨bD, lastPtr none xs, some dA⟩)) (some dA) =
      some ⟨dD, some cA, firstPtr ys none⟩ := by
    rw [lookup_set_ne _ _ (Ne.symm hbd)]; exact hd
  have hl2 : lookup ((h.set bA (some ⟨bD, lastPtr none xs, some dA⟩)).set dA
      (some ⟨dD, some bA, firstPtr ys none⟩)) (some cA) =
      some ⟨cD, some bA, some dA⟩ := by
    rw [lookup_set_ne _ _ hcd, lookup_set_ne _ _ (Ne.symm hbc)]; exact hc
  refine ⟨((h.set bA (some ⟨bD, lastPtr none xs, some dA⟩)).set dA
      (some ⟨dD, some bA, firstPtr ys none⟩)).set cA none,
      { l with count := l.count - 1 }, ?_, ?_, ?_, ?_⟩
  · simp [erase, end_, hheadne, htailne, hc, setNext_eq hb, setPrev_eq hl1, free_eq hl2]
  · refine ⟨?_, ?_, ?_, ?_, ?_⟩
    · simp only [List.map_append, List.map_cons, List.map_nil, List.append_assoc,
        List.singleton_append]
      have h2 := (@List.nodup_middle Nat cA (xs.map Prod.fst ++ [bA])
        (dA :: ys.map Prod.fst)).1 (by simpa using hnd0)
      simpa using (List.nodup_cons.1 h2).2
    · simp only [firstPtr_append] at hhead ⊢
      cases xs <;> simpa using hhead
    · simpa [lastPtr_append] using htail
    · simp only [List.length_append, List.length_cons, List.length_nil] at hcount ⊢
      simp [hcount]
    · rw [dlseg_append, dlseg_append]
      simp only [dlseg_cons, firstPtr_cons, firstPtr_nil, dlseg_nil, and_true, lastPtr_append,
        lastPtr_cons, lastPtr_nil]
      refine ⟨⟨?_, ?_⟩, ?_, ?_⟩
      · refine dlseg_frame ?_ hxs
        intro e he
        have hm := List.mem_map_of_mem Prod.fst he
        have hne1 : e.1 ≠ bA := fun q => hbx (q ▸ hm)
        have hne2 : e.1 ≠ cA := fun q => hcx (q ▸ hm)
        have hne3 : e.1 ≠ dA := fun q => hdx (q ▸ hm)
        rw [lookup_set_ne _ _ hne2, lookup_set_ne _ _ hne3, lookup_set_ne _ _ hne1]
      · rw [lookup_set_ne _ _ hbc, lookup_set_ne _ _ hbd, lookup_set_eq _ _ hblt]
      · rw [lookup_set_ne _ _ (Ne.symm hcd), lookup_set_eq _ _ (by simpa using hdlt)]
      · refine dlseg_frame ?_ hys
        intro e he
        have hm := List.mem_map_of_mem Prod.fst he
        have hne1 : e.1 ≠ bA := fun q => hndr.1.2.2 (q ▸ hm)
        have hne2 : e.1 ≠ cA := fun q => hndr.2.1.2 (q ▸ hm)
        have hne3 : e.1 ≠ dA := fun q => hndr.2.2.1 (q ▸ hm)
        rw [lookup_set_ne _ _ hne2, lookup_set_ne _ _ hne3, lookup_set_ne _ _ hne1]
  · refine ⟨by simp, fun a _ hn => ?_⟩
    simp only [List.map_append, List.map_cons, List.map_nil, List.mem_append, List.mem_cons,
      List.mem_singleton, List.not_mem_nil, or_false, not_or] at hn
    rw [lookup_set_ne _ _ hn.2.1, lookup_set_ne _ _ hn.2.2.1, lookup_set_ne _ _ hn.1.2]
  · exact lookup_set_eq _ _ (by simpa using hclt)


/-- The member `insert` puts a fresh node right before the cell `pos` points to
(after the last cell when `pos` is `end()`), and returns a cursor to it. -/
theorem insert_owns {T : Type} {h : Heap T} {l : LList} {xs ys : List (Nat × T)}
    (ho : Owns h l (xs ++ ys)) (pos : BiDirectionalIterator)
    (hpos : pos.current = firstPtr ys none) (v : T) :
    ∃ h1 l1, insert h l pos v = .ok (h1, l1) ⟨some h.length⟩ ∧
      Owns h1 l1 (xs ++ (h.length, v) :: ys) ∧ Frame h h1 (xs ++ ys) := by
  obtain ⟨p⟩ := pos
  simp only at hpos
  subst hpos
  rcases List.eq_nil_or_concat xs with rfl | ⟨xs, b, rfl⟩
  · obtain ⟨h1, l1, he, ho1, hf⟩ := push_front_owns ho v
    refine ⟨h1, l1, ?_, ho1, hf⟩
    have hh : l.head = firstPtr ys none := by simpa using ho.2.1
    have hh1 : l1.head = some h.length := by simpa using ho1.2.1
    simp [insert, begin, hh, he, hh1]
  · rw [List.concat_eq_append] at *
    cases ys with
    | nil =>
      obtain ⟨h1, l1, he, ho1, hf⟩ := push_back_owns ho v
      refine ⟨h1, l1, ?_, ?_, hf⟩
      · have hh : l.head ≠ none := by
          obtain ⟨e, _, hfe⟩ := firstPtr_snoc_mem xs b (firstPtr ([] : List (Nat × T)) none)
          rw [ho.2.1, firstPtr_append, hfe]; simp
        have ht1 : l1.tail = some h.length := by simpa [lastPtr_append] using ho1.2.2.1
        simp [insert, begin, end_, Ne.symm hh, he, ht1]
      · simpa using ho1
    | cons c ys => exact insert_mid_owns ho v

/-- The member `erase` at a live position unlinks and releases that cell and
returns a cursor to the cell that followed it. -/
theorem erase_owns {T : Type} {h : Heap T} {l : LList} {xs ys : List (Nat × T)}
    {c : Nat × T} (ho : Owns h l (xs ++ c :: ys)) :
    ∃ h1 l1, erase h l ⟨some c.1⟩ = .ok (h1, l1) ⟨firstPtr ys none⟩ ∧
      Owns h1 l1 (xs ++ ys) ∧ Frame h h1 (xs ++ c :: ys) ∧
      lookup h1 (some c.1) = none := by
  rcases List.eq_nil_or_concat xs with rfl | ⟨xs, b, rfl⟩
  · obtain ⟨h1, l1, he, ho1, hf, hg⟩ := pop_front_owns ho
    refine ⟨h1, l1, ?_, ho1, hf, hg⟩
    have hh : l.head = some c.1 := by simpa using ho.2.1
    have hh1 : l1.head = firstPtr ys none := ho1.2.1
    simp [erase, end_, begin, hh, he, hh1]
  · rw [List.concat_eq_append] at *
    cases ys with
    | nil =>
      obtain ⟨h1, l1, he, ho1, hf, hg⟩ := pop_back_owns ho
      refine ⟨h1, l1, ?_, by simpa using ho1, hf, hg⟩
      have hnd := ho.1
      rw [List.map_append, List.map_cons, List.map_nil, nodup_snoc] at hnd
      have hh : (some c.1 : Ptr) ≠ l.head := by
        obtain ⟨e, he, hfe⟩ := firstPtr_snoc_mem xs b (firstPtr [c] none)
        rw [ho.2.1, firstPtr_append, hfe]
        intro heq
        simp only [Option.some.injEq] at heq
        exact hnd.1 (heq ▸ List.mem_map_of_mem Prod.fst he)
      have ht : l.tail = some c.1 := by simpa [lastPtr_append] using ho.2.2.1
      simp [erase, end_, hh, ht, he]
    | cons d ys => exact erase_mid_owns ho

/-- The loop of `clear` releases every cell, given one round of fuel for each. -/
theorem clearLoop_owns {T : Type} {h : Heap T} {l : LList} {cs : List (Nat × T)}
    (ho : Owns h l cs) (fuel : Nat) (hfuel : cs.length ≤ fuel) :
    ∃ h1, clearLoop fuel h l = .ok (h1, mk_empty) () ∧ Frame h h1 cs := by
  induction cs generalizing h l fuel with
  | nil =>
    have hl : l = mk_empty := by
      obtain ⟨_, hh, ht, hc, _⟩ := ho
      cases l; simp_all [mk_empty]
    subst hl
    refine ⟨h, ?_, le_refl _, fun _ _ _ => rfl⟩
    cases fuel <;> simp [clearLoop, empty, mk_empty]
  | cons c cs ih =>
    obtain ⟨h1, l1, he, ho1, hf, _⟩ := pop_front_owns ho
    obtain ⟨fuel, rfl⟩ : ∃ k, fuel = k + 1 := ⟨fuel - 1, by simp at hfuel; omega⟩
    obtain ⟨h2, he2, hf2⟩ := ih ho1 fuel (by simpa using hfuel)
    have hemp : empty l = false := by simp [empty, ho.2.2.2.1]
    refine ⟨h2, by simp [clearLoop, hemp, he, he2], le_trans hf.1 hf2.1, fun a ha hn => ?_⟩
    rw [hf2.2 a (lt_of_lt_of_le ha hf.1) (fun hm => hn (by simp [hm])), hf.2 a ha hn]

/-- The member `clear` leaves the default-empty sequence. -/
theorem clear_owns {T : Type} {h : Heap T} {l : LList} {cs : List (Nat × T)}
    (ho : Owns h l cs) :
    ∃ h1, clear h l = .ok (h1, mk_empty) () ∧ Frame h h1 cs :=
  clearLoop_owns ho l.count (le_of_eq ho.2.2.2.1.symm)


/-! ## Traversals of a well-linked chain -/

theorem walk_none {T : Type} (h : Heap T) (k : Nat) : walk h k none = [] := by
  cases k <;> rfl

theorem walk_succ {T : Type} {h : Heap T} {a : Nat} {n : Node T}
    (hl : lookup h (some a) = some n) (k : Nat) :
    walk h (k + 1) (some a) = (a, n.data) :: walk h k n.next := by
  simp [walk, hl]

theorem follow_succ {T : Type} {h : Heap T} {a : Nat} {n : Node T} (f : Node T → Ptr)
    (hl : lookup h (some a) = some n) (k : Nat) :
    follow h f (k + 1) (some a) = follow h f k (f n) := by
  simp [follow, hl]

theorem follow_succ_none {T : Type} (h : Heap T) (f : Node T → Ptr) (k : Nat) :
    follow h f (k + 1) none = none := rfl

/-- A step of `follow` that succeeds starts at a live node. -/
theorem follow_succ_some {T : Type} {h : Heap T} {f : Node T → Ptr} {k : Nat} {p r : Ptr}
    (hf : follow h f (k + 1) p = some r) :
    ∃ a n, p = some a ∧ lookup h (some a) = some n ∧ follow h f k (f n) = some r := by
  cases p with
  | none => simp [follow] at hf
  | some a =>
    cases hl : lookup h (some a) with
    | none => simp [follow, hl] at hf
    | some n => exact ⟨a, n, rfl, hl, by simpa [follow, hl] using hf⟩

theorem walk_of_dlseg {T : Type} {h : Heap T} {p : Ptr} {cs : List (Nat × T)}
    (hd : dlseg h p cs none) (fuel : Nat) (hfuel : cs.length ≤ fuel) :
    walk h fuel (firstPtr cs none) = cs := by
  induction cs generalizing p fuel with
  | nil => exact walk_none h fuel
  | cons c cs ih =>
    obtain ⟨k, rfl⟩ : ∃ k, fuel = k + 1 := ⟨fuel - 1, by simp at hfuel; omega⟩
    rw [dlseg_cons] at hd
    rw [firstPtr_cons, walk_succ hd.1]
    simp only
    rw [ih hd.2 k (by simpa using hfuel)]

theorem length_le_of_nodup_lt {l : List Nat} {n : Nat} (hnd : l.Nodup)
    (hlt : ∀ a ∈ l, a < n) : l.length ≤ n := by
  have hsub : l ⊆ List.range n := fun a ha => List.mem_range.2 (hlt a ha)
  simpa using (List.subperm_of_subset hnd hsub).length_le

theorem Owns.length_le {T : Type} {h : Heap T} {l : LList} {cs : List (Nat × T)}
    (ho : Owns h l cs) : cs.length ≤ h.length := by
  simpa using length_le_of_nodup_lt ho.1 ho.lt

/-- The cells a sequence owns are the ones its forward traversal meets. -/
theorem Owns.cells_eq {T : Type} {h : Heap T} {l : LList} {cs : List (Nat × T)}
    (ho : Owns h l cs) : cells h l = cs := by
  unfold cells
  rw [ho.2.1]
  exact walk_of_dlseg ho.2.2.2.2 _ ho.length_le

theorem Owns.elements_eq {T : Type} {h : Heap T} {l : LList} {cs : List (Nat × T)}
    (ho : Owns h l cs) : elements h l = cs.map Prod.snd := by
  simp [elements, ho.cells_eq]

theorem Owns.nodes_eq {T : Type} {h : Heap T} {l : LList} {cs : List (Nat × T)}
    (ho : Owns h l cs) : nodes h l = cs.map Prod.fst := by
  simp [nodes, ho.cells_eq]

theorem follow_next_dlseg {T : Type} {h : Heap T} {p n : Ptr} {cs : List (Nat × T)}
    (hd : dlseg h p cs n) : follow h Node.next cs.length (firstPtr cs n) = some n := by
  induction cs generalizing p with
  | nil => rfl
  | cons c cs ih =>
    rw [dlseg_cons] at hd
    rw [firstPtr_cons, List.length_cons, follow_succ _ hd.1]
    exact ih hd.2

theorem follow_prev_dlseg {T : Type} {h : Heap T} {p n : Ptr} {cs : List (Nat × T)}
    (hd : dlseg h p cs n) : follow h Node.prev cs.length (lastPtr p cs) = some p := by
  induction cs using List.reverseRecOn generalizing n with
  | nil => rfl
  | append_singleton xs c ih =>
    rw [dlseg_append] at hd
    obtain ⟨hxs, hc⟩ := hd
    simp only [dlseg_cons, firstPtr_cons, firstPtr_nil, dlseg_nil, and_true] at hxs hc
    rw [lastPtr_append, lastPtr_cons, lastPtr_nil, List.length_append, List.length_cons,
      List.length_nil, follow_succ _ hc]
    exact ih hxs

/-- A sequence that owns its cells satisfies the four invariants. -/
theorem Owns.inv {T : Type} {h : Heap T} {l : LList} {cs : List (Nat × T)}
    (ho : Owns h l cs) : Inv h l := by
  have hnodes := ho.nodes_eq
  obtain ⟨hnd, hhead, htail, hcount, hseg⟩ := ho
  refine ⟨?_, ?_, ?_, ?_, ?_, ?_, ?_⟩
  · unfold Inv1
    cases cs with
    | nil => simp_all
    | cons c cs => simp_all
  · intro hpos
    constructor
    · cases cs with
      | nil => simp [hcount] at hpos
      | cons c cs =>
        rw [dlseg_cons] at hseg
        simp [prevAt, hhead, hseg.1]
    · rcases List.eq_nil_or_concat cs with rfl | ⟨xs, c, rfl⟩
      · simp [hcount] at hpos
      · rw [List.concat_eq_append] at *
        rw [dlseg_append] at hseg
        simp only [dlseg_cons, firstPtr_nil, dlseg_nil, and_true] at hseg
        simp [nextAt, htail, lastPtr_append, hseg.2]
  · intro a ha
    rw [hnodes] at ha
    obtain ⟨c, hc, rfl⟩ := List.mem_map.1 ha
    obtain ⟨xs, ys, rfl⟩ := List.append_of_mem hc
    rw [dlseg_append, dlseg_cons] at hseg
    obtain ⟨hxs, hcl, hys⟩ := hseg
    constructor
    · intro hne
      rcases List.eq_nil_or_concat xs with rfl | ⟨xs, b, rfl⟩
      · exact absurd (by simpa using hhead.symm) hne
      · rw [List.concat_eq_append] at *
        rw [dlseg_append] at hxs
        simp only [dlseg_cons, firstPtr_cons, firstPtr_nil, dlseg_nil, and_true] at hxs
        simp [prevAt, nextAt, hcl, lastPtr_append, hxs.2]
    · intro hne
      cases ys with
      | nil => exact absurd (by simpa [lastPtr_append] using htail.symm) hne
      | cons d ys =>
        rw [dlseg_cons] at hys
        simp [prevAt, nextAt, hcl, hys.1]
  · rw [hcount, hhead]; exact follow_next_dlseg hseg
  · intro _
    rcases List.eq_nil_or_concat cs with rfl | ⟨xs, c, rfl⟩
    · rw [hcount, hhead, htail]; rfl
    · rw [List.concat_eq_append] at *
      rw [dlseg_append] at hseg
      rw [hcount, hhead, htail, firstPtr_append, lastPtr_append]
      simpa using follow_next_dlseg hseg.1
  · rw [hcount, htail]; exact follow_prev_dlseg hseg
  · intro _
    cases cs with
    | nil => rw [hcount, hhead, htail]; rfl
    | cons c cs =>
      rw [dlseg_cons] at hseg
      rw [hcount, hhead, htail]
      simpa using follow_prev_dlseg hseg.2


/-! ## From the invariants to the chain -/

/-- The number of `next` steps from a pointer to the absent link is unique. -/
theorem follow_none_unique {T : Type} {h : Heap T} {p : Ptr} {k j : Nat}
    (hk : follow h Node.next k p = some none) (hj : follow h Node.next j p = some none) :
    k = j := by
  induction k generalizing p j with
  | zero =>
    have hp : p = none := by simpa [follow] using hk
    subst hp
    cases j with
    | zero => rfl
    | succ j => simp [follow] at hj
  | succ k ih =>
    obtain ⟨a, n, rfl, hl, hk1⟩ := follow_succ_some hk
    cases j with
    | zero => simp [follow] at hj
    | succ j =>
      rw [follow_succ _ hl] at hj
      rw [ih hk1 hj]

theorem walk_length_first {T : Type} {h : Heap T} {p : Ptr} {k : Nat}
    (hk : follow h Node.next k p = some none) :
    (walk h k p).length = k ∧ firstPtr (walk h k p) none = p := by
  induction k generalizing p with
  | zero =>
    have hp : p = none := by simpa [follow] using hk
    subst hp
    simp [walk]
  | succ k ih =>
    obtain ⟨a, n, rfl, hl, hk1⟩ := follow_succ_some hk
    rw [walk_succ hl]
    simp [(ih hk1).1]

theorem walk_stable {T : Type} {h : Heap T} {p : Ptr} {k : Nat}
    (hk : follow h Node.next k p = some none) (j : Nat) (hj : k ≤ j) :
    walk h j p = walk h k p := by
  induction k generalizing p j with
  | zero =>
    have hp : p = none := by simpa [follow] using hk
    subst hp
    rw [walk_none, walk_none]
  | succ k ih =>
    obtain ⟨a, n, rfl, hl, hk1⟩ := follow_succ_some hk
    obtain ⟨i, rfl⟩ : ∃ i, j = i + 1 := ⟨j - 1, by omega⟩
    rw [walk_succ hl, walk_succ hl, ih hk1 i (by omega)]

theorem walk_mem_dist {T : Type} {h : Heap T} {p : Ptr} {k : Nat}
    (hk : follow h Node.next k p = some none) :
    ∀ a ∈ (walk h k p).map Prod.fst,
      ∃ j, 0 < j ∧ j ≤ k ∧ follow h Node.next j (some a) = some none := by
  induction k generalizing p with
  | zero => simp [walk]
  | succ k ih =>
    obtain ⟨a, n, rfl, hl, hk1⟩ := follow_succ_some hk
    rw [walk_succ hl]
    intro b hb
    simp only [List.map_cons, List.mem_cons] at hb
    rcases hb with rfl | hb
    · exact ⟨k + 1, by omega, le_refl _, hk⟩
    · obtain ⟨j, hj0, hjk, hj⟩ := ih hk1 b hb
      exact ⟨j, hj0, by omega, hj⟩

theorem walk_nodup {T : Type} {h : Heap T} {p : Ptr} {k : Nat}
    (hk : follow h Node.next k p = some none) : ((walk h k p).map Prod.fst).Nodup := by
  induction k generalizing p with
  | zero => simp [walk]
  | succ k ih =>
    obtain ⟨a, n, rfl, hl, hk1⟩ := follow_succ_some hk
    rw [walk_succ hl, List.map_cons, List.nodup_cons]
    refine ⟨fun hm => ?_, ih hk1⟩
    obtain ⟨j, _, hjk, hj⟩ := walk_mem_dist hk1 a hm
    have := follow_none_unique hk hj
    omega

theorem walk_lt {T : Type} (h : Heap T) (p : Ptr) (k : Nat) :
    ∀ a ∈ (walk h k p).map Prod.fst, a < h.length := by
  induction k generalizing p with
  | zero => simp [walk]
  | succ k ih =>
    cases p with
    | none => simp [walk]
    | some a =>
      cases hl : lookup h (some a) with
      | none => simp [walk, hl]
      | some n =>
        rw [walk_succ hl]
        intro b hb
        simp only [List.map_cons, List.mem_cons] at hb
        rcases hb with rfl | hb
        · exact lookup_lt hl
        · exact ih _ b hb

theorem walk_last {T : Type} {h : Heap T} {p : Ptr} {k : Nat}
    (hk : follow h Node.next (k + 1) p = some none) (q : Ptr) :
    ∃ t, follow h Node.next k p = some (some t) ∧ lastPtr q (walk h (k + 1) p) = some t := by
  induction k generalizing p q with
  | zero =>
    obtain ⟨a, n, rfl, hl, hk1⟩ := follow_succ_some hk
    exact ⟨a, rfl, by rw [walk_succ hl]; simp [walk]⟩
  | succ k ih =>
    obtain ⟨a, n, rfl, hl, hk1⟩ := follow_succ_some hk
    obtain ⟨t, ht1, ht2⟩ := ih hk1 (some a)
    refine ⟨t, ?_, ?_⟩
    · rw [follow_succ _ hl]; exact ht1
    · rw [walk_succ hl, lastPtr_cons]; exact ht2

theorem walk_dlseg {T : Type} {h : Heap T} {p q : Ptr} {k : Nat}
    (hk : follow h Node.next k p = some none)
    (hsym : ∀ a ∈ (walk h k p).map Prod.fst, nextAt h (some a) ≠ some none →
      (nextAt h (some a)).bind (prevAt h) = some (some a))
    (hprev : 0 < k → prevAt h p = some q) :
    dlseg h q (walk h k p) none := by
  induction k generalizing p q with
  | zero => simp [walk]
  | succ k ih =>
    obtain ⟨a, n, rfl, hl, hk1⟩ := follow_succ_some hk
    rw [walk_succ hl] at hsym ⊢
    rw [dlseg_cons]
    have hq : n.prev = q := by simpa [prevAt, hl] using hprev (by omega)
    refine ⟨?_, ih hk1 (fun b hb => hsym b (by simp [hb])) ?_⟩
    · rw [hl, (walk_length_first hk1).2, ← hq]
    · intro hpos
      obtain ⟨j, rfl⟩ : ∃ j, k = j + 1 := ⟨k - 1, by omega⟩
      obtain ⟨b, m, hb, _, _⟩ := follow_succ_some hk1
      have := hsym a (by simp) (by simp [nextAt, hl, hb])
      simpa [nextAt, hl] using this

/-- A sequence that satisfies the four invariants owns the cells its forward
traversal meets. -/
theorem Inv.owns {T : Type} {h : Heap T} {l : LList} (hi : Inv h l) :
    Owns h l (cells h l) := by
  obtain ⟨h1, h2, h3, h4, h4t, _, _⟩ := hi
  have hnd := walk_nodup h4
  have hle : l.count ≤ h.length := by
    have := length_le_of_nodup_lt hnd (walk_lt h l.head l.count)
    simpa [(walk_length_first h4).1] using this
  have hcells : cells h l = walk h l.count l.head := walk_stable h4 _ hle
  rw [hcells]
  refine ⟨hnd, (walk_length_first h4).2.symm, ?_, (walk_length_first h4).1.symm, ?_⟩
  · rcases Nat.eq_zero_or_pos l.count with h0 | hpos
    · rw [h0]; simpa [walk] using (h1.1 h0).2
    · obtain ⟨k, hk⟩ : ∃ k, l.count = k + 1 := ⟨l.count - 1, by omega⟩
      rw [hk] at h4 ⊢
      obtain ⟨t, ht1, ht2⟩ := walk_last h4 none
      have := h4t hpos
      rw [hk, Nat.add_sub_cancel, ht1] at this
      rw [ht2]; exact (Option.some.inj this).symm
  · refine walk_dlseg h4 ?_ (fun hpos => (h2 hpos).1)
    intro a ha hne
    have hmem : a ∈ nodes h l := by simpa [nodes, hcells] using ha
    refine (h3 a hmem).2 ?_
    intro heq
    have hpos : 0 < l.count := by
      rcases Nat.eq_zero_or_pos l.count with h0 | hpos
      · rw [h0] at ha; simp [walk] at ha
      · exact hpos
    exact hne (heq ▸ (h2 hpos).2)

/-- The four invariants say exactly that the sequence owns a chain of cells. -/
theorem inv_iff_owns {T : Type} (h : Heap T) (l : LList) :
    Inv h l ↔ ∃ cs, Owns h l cs :=
  ⟨fun hi => ⟨_, hi.owns⟩, fun ⟨_, ho⟩ => ho.inv⟩


/-! ## Positions and element access -/

theorem firstPtr_drop {T : Type} (cs : List (Nat × T)) (i : Nat) :
    firstPtr (cs.drop i) none = (cs.map Prod.fst)[i]? := by
  induction cs generalizing i with
  | nil => simp
  | cons c cs ih =>
    cases i with
    | zero => simp
    | succ i => simpa using ih i

theorem Owns.isPos_split {T : Type} {h : Heap T} {l : LList} {cs : List (Nat × T)}
    (ho : Owns h l cs) {pos : BiDirectionalIterator} (hpos : IsPos h l pos) :
    ∃ xs ys, cs = xs ++ ys ∧ pos.current = firstPtr ys none := by
  rcases hpos with rfl | ⟨a, ha, hcur⟩
  · exact ⟨cs, [], by simp, rfl⟩
  · rw [ho.nodes_eq] at ha
    obtain ⟨c, hc, rfl⟩ := List.mem_map.1 ha
    obtain ⟨xs, ys, rfl⟩ := List.append_of_mem hc
    exact ⟨xs, c :: ys, rfl, hcur⟩

theorem Owns.front_eq {T : Type} {h : Heap T} {l : LList} {c : Nat × T}
    {cs : List (Nat × T)} (ho : Owns h l (c :: cs)) : front h l = .ok (h, l) c.2 := by
  obtain ⟨_, hhead, _, hcount, hseg⟩ := ho
  rw [dlseg_cons] at hseg
  simp [front, empty, hcount, hhead, hseg.1]

theorem Owns.back_eq {T : Type} {h : Heap T} {l : LList} {c : Nat × T}
    {cs : List (Nat × T)} (ho : Owns h l (cs ++ [c])) : back h l = .ok (h, l) c.2 := by
  obtain ⟨_, _, htail, hcount, hseg⟩ := ho
  rw [dlseg_append] at hseg
  simp only [dlseg_cons, firstPtr_nil, dlseg_nil, and_true] at hseg
  simp [back, empty, hcount, htail, lastPtr_append, hseg.2]

theorem Owns.deref_eq {T : Type} {h : Heap T} {l : LList} {cs : List (Nat × T)}
    (ho : Owns h l cs) {c : Nat × T} (hc : c ∈ cs) :
    deref h ⟨some c.1⟩ = .ok ⟨some c.1⟩ c.2 := by
  obtain ⟨m, hm, hd⟩ := dlseg_lookup ho.2.2.2.2 c hc
  simp [deref, hm, hd]

/-! ## The claims -/

/-- C1. Every public mutator keeps the four sequence invariants: when they hold
of a sequence (and of `other`, for `swap`), they hold of the state left by
`push_back`, `push_front`, `pop_back`, `pop_front`, `clear`, `swap`, and by
`insert(pos, v)` and `erase(pos)` for every `pos` that is a live position of the
sequence or `end()`; the default-constructed sequence has them. -/
theorem C1_invariants_preserved {T : Type} (h : Heap T) (l other : LList)
    (pos : BiDirectionalIterator) (v : T)
    (hi : Inv h l) (hio : Inv h other) (hpos : IsPos h l pos) :
    Inv h mk_empty ∧
    (∃ s, (push_back h l v).state = some s ∧ Inv s.1 s.2) ∧
    (∃ s, (push_front h l v).state = some s ∧ Inv s.1 s.2) ∧
    (∃ s, (pop_back h l).state = some s ∧ Inv s.1 s.2) ∧
    (∃ s, (pop_front h l).state = some s ∧ Inv s.1 s.2) ∧
    (∃ s, (clear h l).state = some s ∧ Inv s.1 s.2) ∧
    (Inv h (swap l other).1 ∧ Inv h (swap l other).2) ∧
    (∃ s, (insert h l pos v).state = some s ∧ Inv s.1 s.2) ∧
    (∃ s, (erase h l pos).state = some s ∧ Inv s.1 s.2) := by
  have ho := hi.owns
  refine ⟨(owns_nil h).inv, ?_, ?_, ?_, ?_, ?_, ?_, ?_, ?_⟩
  · obtain ⟨h1, l1, he, ho1, _⟩ := push_back_owns ho v
    exact ⟨(h1, l1), by rw [he]; rfl, ho1.inv⟩
  · obtain ⟨h1, l1, he, ho1, _⟩ := push_front_owns ho v
    exact ⟨(h1, l1), by rw [he]; rfl, ho1.inv⟩
  · rcases List.eq_nil_or_concat (cells h l) with hnil | ⟨xs, c, hcs⟩
    · have hc : l.count = 0 := by rw [ho.2.2.2.1, hnil]; rfl
      exact ⟨(h, l), by simp [pop_back, empty, hc, Res.state], hi⟩
    · rw [hcs, List.concat_eq_append] at ho
      obtain ⟨h1, l1, he, ho1, _⟩ := pop_back_owns ho
      exact ⟨(h1, l1), by rw [he]; rfl, ho1.inv⟩
  · cases hcs : cells h l with
    | nil =>
      have hc : l.count = 0 := by rw [ho.2.2.2.1, hcs]; rfl
      exact ⟨(h, l), by simp [pop_front, empty, hc, Res.state], hi⟩
    | cons c cs =>
      rw [hcs] at ho
      obtain ⟨h1, l1, he, ho1, _⟩ := pop_front_owns ho
      exact ⟨(h1, l1), by rw [he]; rfl, ho1.inv⟩
  · obtain ⟨h1, he, _⟩ := clear_owns ho
    exact ⟨(h1, mk_empty), by rw [he]; rfl, (owns_nil h1).inv⟩
  · have e1 : (swap l other).1 = other := rfl
    have e2 : (swap l other).2 = l := rfl
    rw [e1, e2]; exact ⟨hio, hi⟩
  · obtain ⟨xs, ys, hcs, hp⟩ := ho.isPos_split hpos
    rw [hcs] at ho
    obtain ⟨h1, l1, he, ho1, _⟩ := insert_owns ho pos hp v
    exact ⟨(h1, l1), by rw [he]; rfl, ho1.inv⟩
  · rcases hpos with rfl | ⟨a, ha, hcur⟩
    · exact ⟨(h, l), by simp [erase, Res.state], hi⟩
    · rw [ho.nodes_eq] at ha
      obtain ⟨c, hc, rfl⟩ := List.mem_map.1 ha
      obtain ⟨xs, ys, hcs⟩ := List.append_of_mem hc
      rw [hcs] at ho
      obtain ⟨h1, l1, he, ho1, _⟩ := erase_owns ho
      have hpe : pos = ⟨some c.1⟩ := by cases pos; simpa using hcur
      exact ⟨(h1, l1), by rw [hpe, he]; rfl, ho1.inv⟩


theorem C1_invariants_preserved_witness :
    Inv exHeap exList ∧ Inv exHeap mk_empty ∧ IsPos exHeap exList ⟨some 0⟩ ∧
    ∃ s, (insert exHeap exList ⟨some 0⟩ 9).state = some s ∧ Inv s.1 s.2 :=
  ⟨by decide, by decide, by decide,
    (C1_invariants_preserved exHeap exList mk_empty ⟨some 0⟩ 9
      (by decide) (by decide) (by decide)).2.2.2.2.2.2.2.1⟩

/-- C2. On a well-formed sequence with elements `[e1..en]`, `push_back(x)` returns
normally and leaves `[e1..en, x]` with `back() == x`, `push_front(x)` returns
normally and leaves `[x, e1..en]` with `front() == x`, and `size()` is `n + 1`
after either.  Starting empty, `push_back(1)`, `push_back(2)`, `push_front(0)` gives
`[0, 1, 2]` with size 3, front 0 and back 2. -/
theorem C2_push {T : Type} (h : Heap T) (l : LList) (x : T) (hi : Inv h l) :
    (∃ h1 l1, push_back h l x = .ok (h1, l1) () ∧ Inv h1 l1 ∧
      elements h1 l1 = elements h l ++ [x] ∧ back h1 l1 = .ok (h1, l1) x ∧
      size l1 = (elements h l).length + 1) ∧
    (∃ h1 l1, push_front h l x = .ok (h1, l1) () ∧ Inv h1 l1 ∧
      elements h1 l1 = x :: elements h l ∧ front h1 l1 = .ok (h1, l1) x ∧
      size l1 = (elements h l).length + 1) ∧
    (∀ g : Heap Int, ∃ h1 l1 h2 l2 h3 l3,
      push_back g mk_empty 1 = .ok (h1, l1) () ∧ push_back h1 l1 2 = .ok (h2, l2) () ∧
      push_front h2 l2 0 = .ok (h3, l3) () ∧ elements h3 l3 = [0, 1, 2] ∧ size l3 = 3 ∧
      front h3 l3 = .ok (h3, l3) 0 ∧ back h3 l3 = .ok (h3, l3) 2) := by
  have ho := hi.owns
  refine ⟨?_, ?_, ?_⟩
  · obtain ⟨h1, l1, he, ho1, _⟩ := push_back_owns ho x
    refine ⟨h1, l1, he, ho1.inv, ?_, ho1.back_eq, ?_⟩
    · rw [ho1.elements_eq, ho.elements_eq]; simp
    · rw [ho.elements_eq]; simp [size, ho1.2.2.2.1]
  · obtain ⟨h1, l1, he, ho1, _⟩ := push_front_owns ho x
    refine ⟨h1, l1, he, ho1.inv, ?_, ho1.front_eq, ?_⟩
    · rw [ho1.elements_eq, ho.elements_eq]; simp
    · rw [ho.elements_eq]; simp [size, ho1.2.2.2.1]
  · intro g
    obtain ⟨h1, l1, he1, ho1, _⟩ := push_back_owns (owns_nil g) (1 : Int)
    obtain ⟨h2, l2, he2, ho2, _⟩ := push_back_owns ho1 (2 : Int)
    obtain ⟨h3, l3, he3, ho3, _⟩ := push_front_owns ho2 (0 : Int)
    refine ⟨h1, l1, h2, l2, h3, l3, he1, he2, he3, ?_, ?_, ho3.front_eq, ?_⟩
    · rw [ho3.elements_eq]; simp
    · simp [size, ho3.2.2.2.1]
    · have ho3b : Owns h3 l3 ([(h2.length, (0 : Int)), (g.length, 1)] ++ [(h1.length, 2)]) := by
        simpa using ho3
      exact ho3b.back_eq

theorem C2_push_witness :
    Inv exHeap exList ∧
    ∃ h1 l1, push_back exHeap exList 7 = .ok (h1, l1) () ∧ Inv h1 l1 ∧
      elements h1 l1 = elements exHeap exList ++ [7] ∧ back h1 l1 = .ok (h1, l1) 7 ∧
      size l1 = (elements exHeap exList).length + 1 :=
  ⟨by decide, (C2_push exHeap exList 7 (by decide)).1⟩

/-- C3. `pop_back` and `pop_front` throw exactly when the sequence is empty, what
they throw is the underflow error, and the state at the throw is the state
before the call.  On a well-formed sequence with elements `[e1..en]`, `n >= 1`,
`pop_back` returns normally leaving `[e1..e(n-1)]`, `pop_front` leaving
`[e2..en]`, `size()` becomes `n - 1`, and when `n == 1` both `head` and `tail`
become absent. -/
theorem C3_pop {T : Type} (h : Heap T) (l : LList) :
    (∀ e s, pop_back h l = .throw e s ↔
      (empty l = true ∧ e = .underflow_error ∧ s = (h, l))) ∧
    (∀ e s, pop_front h l = .throw e s ↔
      (empty l = true ∧ e = .underflow_error ∧ s = (h, l))) ∧
    (Inv h l → 1 ≤ (elements h l).length →
      (∃ h1 l1, pop_back h l = .ok (h1, l1) () ∧ Inv h1 l1 ∧
        elements h1 l1 = (elements h l).dropLast ∧
        size l1 = (elements h l).length - 1 ∧
        ((elements h l).length = 1 → l1.head = none ∧ l1.tail = none)) ∧
      (∃ h1 l1, pop_front h l = .ok (h1, l1) () ∧ Inv h1 l1 ∧
        elements h1 l1 = (elements h l).tail ∧
        size l1 = (elements h l).length - 1 ∧
        ((elements h l).length = 1 → l1.head = none ∧ l1.tail = none))) := by
  refine ⟨?_, ?_, ?_⟩
  · intro e s
    unfold pop_back
    by_cases hem : empty l = true
    · simp only [hem, if_true, Res.throw.injEq, true_and]
      constructor
      · rintro ⟨rfl, rfl⟩; exact ⟨rfl, rfl⟩
      · rintro ⟨rfl, rfl⟩; exact ⟨rfl, rfl⟩
    · simp only [hem, false_and, iff_false]
      simp only [Bool.false_eq_true, ↓reduceIte]
      split
      · simp
      · split
        · simp
        · split <;> simp
  · intro e s
    unfold pop_front
    by_cases hem : empty l = true
    · simp only [hem, if_true, Res.throw.injEq, true_and]
      constructor
      · rintro ⟨rfl, rfl⟩; exact ⟨rfl, rfl⟩
      · rintro ⟨rfl, rfl⟩; exact ⟨rfl, rfl⟩
    · simp only [hem, false_and, iff_false]
      simp only [Bool.false_eq_true, ↓reduceIte]
      split
      · simp
      · split
        · simp
        · split <;> simp
  · intro hi hn
    have ho := hi.owns
    have hel := ho.elements_eq
    constructor
    · rcases List.eq_nil_or_concat (cells h l) with hnil | ⟨xs, c, hcs⟩
      · rw [hel, hnil] at hn; simp at hn
      · rw [List.concat_eq_append] at hcs
        rw [hcs] at ho hel
        obtain ⟨h1, l1, he, ho1, _⟩ := pop_back_owns ho
        refine ⟨h1, l1, he, ho1.inv, ?_, ?_, ?_⟩
        · rw [ho1.elements_eq, hel]; simp [List.dropLast_concat]
        · rw [hel]; simp [size, ho1.2.2.2.1]
        · rw [hel]
          intro h1len
          have : xs = [] := by
            simp at h1len; exact h1len
          subst this
          exact ⟨by simpa using ho1.2.1, by simpa using ho1.2.2.1⟩
    · cases hcs : cells h l with
      | nil => rw [hel, hcs] at hn; simp at hn
      | cons c cs =>
        rw [hcs] at ho hel
        obtain ⟨h1, l1, he, ho1, _⟩ := pop_front_owns ho
        refine ⟨h1, l1, he, ho1.inv, ?_, ?_, ?_⟩
        · rw [ho1.elements_eq, hel]; simp
        · rw [hel]; simp [size, ho1.2.2.2.1]
        · rw [hel]
          intro h1len
          have : cs = [] := by
            simp at h1len; exact h1len
          subst this
          exact ⟨by simpa using ho1.2.1, by simpa using ho1.2.2.1⟩


theorem C3_pop_witness :
    Inv exHeap exList ∧ 1 ≤ (elements exHeap exList).length ∧
    ∃ h1 l1, pop_back exHeap exList = .ok (h1, l1) () ∧ Inv h1 l1 ∧
      elements h1 l1 = (elements exHeap exList).dropLast ∧
      size l1 = (elements exHeap exList).length - 1 ∧
      ((elements exHeap exList).length = 1 → l1.head = none ∧ l1.tail = none) :=
  ⟨by decide, by decide, ((C3_pop exHeap exList).2.2 (by decide) (by decide)).1⟩

theorem Owns.cursorAt_eq {T : Type} {h : Heap T} {l : LList} {cs : List (Nat × T)}
    (ho : Owns h l cs) (i : Nat) : cursorAt h l i = ⟨firstPtr (cs.drop i) none⟩ := by
  rw [cursorAt, ho.nodes_eq, firstPtr_drop]

theorem Owns.begin_eq {T : Type} {h : Heap T} {l : LList} {cs : List (Nat × T)}
    (ho : Owns h l cs) : begin l = cursorAt h l 0 := by
  rw [ho.cursorAt_eq, begin, ho.2.1]; rfl

theorem map_snd_eq_three {T : Type} {cs : List (Nat × T)} {a b c : T}
    (h : cs.map Prod.snd = [a, b, c]) : ∃ x y z, cs = [(x, a), (y, b), (z, c)] := by
  rcases cs with _ | ⟨⟨x, a1⟩, _ | ⟨⟨y, b1⟩, _ | ⟨⟨z, c1⟩, _ | ⟨c3, r⟩⟩⟩⟩ <;> simp at h
  obtain ⟨rfl, rfl, rfl⟩ := h
  exact ⟨x, y, z, rfl⟩

/-- C4. On a well-formed sequence with elements `[e1..en]`, for the cursor `pos` at
index `i <= n` (the live position of an element, or `end()` when `i == n`),
`insert(pos, v)` returns normally, leaves the elements before `pos`, then `v`,
then the elements from `pos` on; `size()` becomes `n + 1`; the cursor returned
is the live position at index `i`, and dereferences to `v`.  Inserting 9 at the
cursor on element 1 of `[0, 1, 2]` gives `[0, 9, 1, 2]`. -/
theorem C4_insert {T : Type} (h : Heap T) (l : LList) (i : Nat) (v : T)
    (hi : Inv h l) (hle : i ≤ (elements h l).length) :
    (∃ h1 l1 it, insert h l (cursorAt h l i) v = .ok (h1, l1) it ∧ Inv h1 l1 ∧
      elements h1 l1 = (elements h l).take i ++ v :: (elements h l).drop i ∧
      size l1 = (elements h l).length + 1 ∧
      it = cursorAt h1 l1 i ∧ (∃ a ∈ nodes h1 l1, it.current = some a) ∧
      deref h1 it = .ok it v) ∧
    (∀ (g : Heap Int) (m : LList), Inv g m → elements g m = [0, 1, 2] →
      deref g (cursorAt g m 1) = .ok (cursorAt g m 1) 1 ∧
      ∃ h1 l1 it, insert g m (cursorAt g m 1) 9 = .ok (h1, l1) it ∧
        elements h1 l1 = [0, 9, 1, 2]) := by
  have key : ∀ {U : Type} (g : Heap U) (m : LList) (j : Nat) (w : U), Inv g m →
      j ≤ (elements g m).length →
      ∃ h1 l1 it, insert g m (cursorAt g m j) w = .ok (h1, l1) it ∧ Inv h1 l1 ∧
        elements h1 l1 = (elements g m).take j ++ w :: (elements g m).drop j ∧
        size l1 = (elements g m).length + 1 ∧
        it = cursorAt h1 l1 j ∧ (∃ a ∈ nodes h1 l1, it.current = some a) ∧
        deref h1 it = .ok it w := by
    intro U g m j w hi hle
    have ho := hi.owns
    have hel := ho.elements_eq
    have hlen : j ≤ (cells g m).length := by simpa [hel] using hle
    have ho2 : Owns g m ((cells g m).take j ++ (cells g m).drop j) := by
      rw [List.take_append_drop]; exact ho
    obtain ⟨h1, l1, he, ho1, _⟩ := insert_owns ho2 (cursorAt g m j)
      (by rw [ho.cursorAt_eq]) w
    refine ⟨h1, l1, ⟨some g.length⟩, he, ho1.inv, ?_, ?_, ?_, ?_, ?_⟩
    · rw [ho1.elements_eq, hel]; simp [List.map_take, List.map_drop]
    · rw [hel]
      have := ho1.2.2.2.1
      simp only [List.length_append, List.length_cons, List.length_take, List.length_drop] at this
      simp only [size, this, List.length_map]
      omega
    · rw [ho1.cursorAt_eq]
      have : ((cells g m).take j ++ (g.length, w) :: (cells g m).drop j).drop j =
          (g.length, w) :: (cells g m).drop j := by
        rw [List.drop_append_of_le_length (by simp [hlen])]
        simp [List.drop_take]
      rw [this]; rfl
    · exact ⟨g.length, by rw [ho1.nodes_eq]; simp, rfl⟩
    · exact ho1.deref_eq (c := (g.length, w)) (by simp)
  refine ⟨key h l i v hi hle, ?_⟩
  intro g m hg hm
  have ho := hg.owns
  constructor
  · have hel := ho.elements_eq
    rw [hm] at hel
    obtain ⟨x, y, z, hcs⟩ := map_snd_eq_three hel.symm
    rw [ho.cursorAt_eq, hcs]
    rw [hcs] at ho
    exact ho.deref_eq (c := (y, 1)) (by simp)
  · obtain ⟨h1, l1, it, he, _, hel, _⟩ := key g m 1 9 hg (by simp [hm])
    exact ⟨h1, l1, it, he, by simpa [hm] using hel⟩

theorem C4_insert_witness :
    Inv exHeap exList ∧ 1 ≤ (elements exHeap exList).length ∧
    ∃ h1 l1 it, insert exHeap exList (cursorAt exHeap exList 1) 9 = .ok (h1, l1) it ∧
      Inv h1 l1 ∧
      elements h1 l1 = (elements exHeap exList).take 1 ++ 9 :: (elements exHeap exList).drop 1 ∧
      size l1 = (elements exHeap exList).length + 1 ∧
      it = cursorAt h1 l1 1 ∧ (∃ a ∈ nodes h1 l1, it.current = some a) ∧
      deref h1 it = .ok it 9 :=
  ⟨by decide, by decide, (C4_insert exHeap exList 1 9 (by decide) (by decide)).1⟩


/-- C5. On a well-formed sequence with elements `[e1..en]`, `erase` at the live
position of index `i < n` returns normally, leaves the elements without the one
at that index, `size()` becomes `n - 1`, and the cursor returned is the position
of the element that followed (so it sits at index `i` afterwards and
dereferences to that element), `end()` when the last element was removed and
the new `begin()` when the first one was.  `erase(begin())` on `[0, 1, 2]` gives
`[1, 2]` and a cursor that dereferences to 1. -/
theorem C5_erase {T : Type} (h : Heap T) (l : LList) (i : Nat)
    (hi : Inv h l) (hlt : i < (elements h l).length) :
    (∃ h1 l1 it, erase h l (cursorAt h l i) = .ok (h1, l1) it ∧ Inv h1 l1 ∧
      elements h1 l1 = (elements h l).eraseIdx i ∧
      size l1 = (elements h l).length - 1 ∧
      it = cursorAt h l (i + 1) ∧ it = cursorAt h1 l1 i ∧
      (i + 1 = (elements h l).length → it = end_ l1) ∧
      (i = 0 → it = begin l1) ∧
      (∀ x, (elements h l)[i + 1]? = some x → deref h1 it = .ok it x)) ∧
    (∀ (g : Heap Int) (m : LList), Inv g m → elements g m = [0, 1, 2] →
      ∃ h1 l1 it, erase g m (begin m) = .ok (h1, l1) it ∧ elements h1 l1 = [1, 2] ∧
        deref h1 it = .ok it 1) := by
  have key : ∀ {U : Type} (g : Heap U) (m : LList) (j : Nat), Inv g m →
      j < (elements g m).length →
      ∃ h1 l1 it, erase g m (cursorAt g m j) = .ok (h1, l1) it ∧ Inv h1 l1 ∧
        elements h1 l1 = (elements g m).eraseIdx j ∧
        size l1 = (elements g m).length - 1 ∧
        it = cursorAt g m (j + 1) ∧ it = cursorAt h1 l1 j ∧
        (j + 1 = (elements g m).length → it = end_ l1) ∧
        (j = 0 → it = begin l1) ∧
        (∀ x, (elements g m)[j + 1]? = some x → deref h1 it = .ok it x) := by
    intro U g m j hi hlt
    have ho := hi.owns
    have hel := ho.elements_eq
    have hlen : j < (cells g m).length := by simpa [hel] using hlt
    have hsplit : cells g m = (cells g m).take j ++ (cells g m)[j] :: (cells g m).drop (j + 1) := by
      rw [← List.drop_eq_getElem_cons hlen, List.take_append_drop]
    have ho2 : Owns g m ((cells g m).take j ++ (cells g m)[j] :: (cells g m).drop (j + 1)) := by
      rw [← hsplit]; exact ho
    obtain ⟨h1, l1, he, ho1, _, _⟩ := erase_owns ho2
    have hcur : cursorAt g m j = ⟨some (cells g m)[j].1⟩ := by
      rw [ho.cursorAt_eq, List.drop_eq_getElem_cons hlen]; rfl
    have hdrop : ((cells g m).take j ++ (cells g m).drop (j + 1)).drop j =
        (cells g m).drop (j + 1) := by
      rw [List.drop_append_of_le_length (by simp; omega)]
      simp [List.drop_take]
    refine ⟨h1, l1, ⟨firstPtr ((cells g m).drop (j + 1)) none⟩, by rw [hcur, he], ho1.inv,
      ?_, ?_, ?_, ?_, ?_, ?_, ?_⟩
    · rw [ho1.elements_eq, hel, List.eraseIdx_eq_take_drop_succ]
      simp [List.map_take, List.map_drop]
    · rw [hel]
      have := ho1.2.2.2.1
      simp only [List.length_append, List.length_take, List.length_drop] at this
      simp only [size, this, List.length_map]
      omega
    · rw [ho.cursorAt_eq]
    · rw [ho1.cursorAt_eq, hdrop]
    · intro hlast
      have : (cells g m).drop (j + 1) = [] := by
        apply List.drop_eq_nil_of_le
        simp [hel] at hlast; omega
      rw [this]; rfl
    · rintro rfl
      rw [ho1.begin_eq, ho1.cursorAt_eq, hdrop]
    · intro x hx
      rw [hel, List.getElem?_map] at hx
      cases hc : (cells g m)[j + 1]? with
      | none => simp [hc] at hx
      | some c =>
        simp only [hc, Option.map_some', Option.some.injEq] at hx
        have hlen2 : j + 1 < (cells g m).length := by
          by_contra hcon
          rw [List.getElem?_eq_none (by omega)] at hc
          exact Option.noConfusion hc
        have hcv : (cells g m)[j + 1] = c := by
          rw [List.getElem?_eq_getElem hlen2] at hc
          exact Option.some.inj hc
        rw [List.drop_eq_getElem_cons hlen2, firstPtr_cons, hcv, ← hx]
        refine ho1.deref_eq ?_
        rw [List.mem_append]; right
        rw [List.drop_eq_getElem_cons hlen2, hcv]
        exact List.mem_cons_self _ _
  refine ⟨key h l i hi hlt, ?_⟩
  intro g m hg hm
  obtain ⟨h1, l1, it, he, _, hel, _, _, _, _, _, hd⟩ := key g m 0 hg (by simp [hm])
  refine ⟨h1, l1, it, ?_, by simpa [hm] using hel, hd 1 (by simp [hm])⟩
  rw [hg.owns.begin_eq]; exact he

theorem C5_erase_witness :
    Inv exHeap exList ∧ 1 < (elements exHeap exList).length ∧
    ∃ h1 l1 it, erase exHeap exList (cursorAt exHeap exList 1) = .ok (h1, l1) it ∧
      Inv h1 l1 ∧ elements h1 l1 = (elements exHeap exList).eraseIdx 1 ∧
      size l1 = (elements exHeap exList).length - 1 ∧
      it = cursorAt exHeap exList (1 + 1) ∧ it = cursorAt h1 l1 1 ∧
      (1 + 1 = (elements exHeap exList).length → it = end_ l1) ∧
      (1 = 0 → it = begin l1) ∧
      (∀ x, (elements exHeap exList)[1 + 1]? = some x → deref h1 it = .ok it x) :=
  ⟨by decide, by decide, (C5_erase exHeap exList 1 (by decide) (by decide)).1⟩

/-- C6. On every sequence, well-formed or not, `erase(end())` returns normally, the
cursor it returns equals `end()`, and the heap (every link and element) and
`head`, `tail`, `count` are as before the call. -/
theorem C6_erase_end {T : Type} (h : Heap T) (l : LList) :
    ∃ it, erase h l (end_ l) = .ok (h, l) it ∧ it_eq it (end_ l) = true :=
  ⟨end_ l, by simp [erase], by simp [it_eq]⟩


theorem preinc_times_dlseg {T : Type} {h : Heap T} {p : Ptr} (xs ys : List (Nat × T))
    (hd : dlseg h p (xs ++ ys) none) :
    preinc_times h xs.length ⟨firstPtr (xs ++ ys) none⟩ =
      .ok ⟨firstPtr ys none⟩ ⟨firstPtr ys none⟩ := by
  induction xs generalizing p with
  | nil => rfl
  | cons c xs ih =>
    rw [List.cons_append, dlseg_cons] at hd
    simp only [List.cons_append, firstPtr_cons, List.length_cons, preinc_times, preinc, ne_eq,
      reduceCtorEq, not_false_eq_true, ↓reduceIte, hd.1]
    exact ih hd.2

/-- C7. On a well-formed sequence `size()` is the number of cursor steps from
`begin()` to `end()`: `size()` prefix increments of `begin()` give a cursor equal
to `end()`, fewer give a cursor that differs from `end()`; `begin() == end()`
exactly when the sequence is empty; and `size()` is the number of elements. -/
theorem C7_size_steps {T : Type} (h : Heap T) (l : LList) (hi : Inv h l) :
    (∃ it, preinc_times h (size l) (begin l) = .ok it it ∧ it_eq it (end_ l) = true) ∧
    (∀ k, k < size l →
      ∃ it, preinc_times h k (begin l) = .ok it it ∧ it_eq it (end_ l) = false) ∧
    (it_eq (begin l) (end_ l) = true ↔ empty l = true) ∧
    size l = (elements h l).length := by
  have ho := hi.owns
  obtain ⟨_, hhead, _, hcount, hseg⟩ := ho
  refine ⟨?_, ?_, ?_, ?_⟩
  · refine ⟨⟨none⟩, ?_, rfl⟩
    have := preinc_times_dlseg (p := none) (cells h l) [] (by simpa using hseg)
    simpa [size, begin, hcount, hhead] using this
  · intro k hk
    have hk2 : k < (cells h l).length := by simpa [size, hcount] using hk
    have hsplit : (cells h l).take k ++ (cells h l)[k] :: (cells h l).drop (k + 1) = cells h l := by
      rw [← List.drop_eq_getElem_cons hk2, List.take_append_drop]
    have := preinc_times_dlseg (p := none) ((cells h l).take k)
      ((cells h l)[k] :: (cells h l).drop (k + 1)) (by rw [hsplit]; exact hseg)
    rw [hsplit, List.length_take, min_eq_left (le_of_lt hk2)] at this
    exact ⟨⟨some (cells h l)[k].1⟩, by rw [begin, hhead]; exact this, by simp [it_eq, end_]⟩
  · cases hc : cells h l with
    | nil => simp [it_eq, begin, end_, empty, hhead, hcount, hc]
    | cons c cs => simp [it_eq, begin, end_, empty, hhead, hcount, hc]
  · simp [size, hcount, elements]

theorem C7_size_steps_witness :
    Inv exHeap exList ∧
    (∃ it, preinc_times exHeap (size exList) (begin exList) = .ok it it ∧
      it_eq it (end_ exList) = true) ∧
    size exList = (elements exHeap exList).length :=
  ⟨by decide, (C7_size_steps exHeap exList (by decide)).1,
    (C7_size_steps exHeap exList (by decide)).2.2.2⟩

/-- C8. `front()` and `back()` throw exactly when the sequence is empty, what they
throw is the out-of-range error, and the state at the throw is the state before
the call.  On a well-formed non-empty sequence with elements `[e1..en]`,
`front()` returns `e1` and `back()` returns `en`, they read the same node when
`n == 1`, and the state after either call is the state before it. -/
theorem C8_front_back {T : Type} (h : Heap T) (l : LList) :
    (∀ e s, front h l = .throw e s ↔
      (empty l = true ∧ e = .out_of_range ∧ s = (h, l))) ∧
    (∀ e s, back h l = .throw e s ↔
      (empty l = true ∧ e = .out_of_range ∧ s = (h, l))) ∧
    (Inv h l → empty l = false →
      ∃ x y, (elements h l).head? = some x ∧ (elements h l).getLast? = some y ∧
        front h l = .ok (h, l) x ∧ back h l = .ok (h, l) y ∧
        (size l = 1 → l.head = l.tail ∧ x = y)) := by
  refine ⟨?_, ?_, ?_⟩
  · intro e s
    unfold front
    by_cases hem : empty l = true
    · simp only [hem, if_true, Res.throw.injEq, true_and]
      constructor
      · rintro ⟨rfl, rfl⟩; exact ⟨rfl, rfl⟩
      · rintro ⟨rfl, rfl⟩; exact ⟨rfl, rfl⟩
    · simp only [hem, false_and, iff_false]
      simp only [Bool.false_eq_true, ↓reduceIte]
      split <;> simp
  · intro e s
    unfold back
    by_cases hem : empty l = true
    · simp only [hem, if_true, Res.throw.injEq, true_and]
      constructor
      · rintro ⟨rfl, rfl⟩; exact ⟨rfl, rfl⟩
      · rintro ⟨rfl, rfl⟩; exact ⟨rfl, rfl⟩
    · simp only [hem, false_and, iff_false]
      simp only [Bool.false_eq_true, ↓reduceIte]
      split <;> simp
  · intro hi hne
    have ho := hi.owns
    have hel := ho.elements_eq
    have hcount := ho.2.2.2.1
    cases hcs : cells h l with
    | nil => simp [empty, hcount, hcs] at hne
    | cons c cs =>
      rcases List.eq_nil_or_concat (cells h l) with hnil | ⟨xs, d, hxs⟩
      · rw [hcs] at hnil; exact absurd hnil (List.cons_ne_nil _ _)
      · rw [List.concat_eq_append] at hxs
        have hf : front h l = .ok (h, l) c.2 := Owns.front_eq (hcs ▸ ho)
        have hb : back h l = .ok (h, l) d.2 := Owns.back_eq (hxs ▸ ho)
        refine ⟨c.2, d.2, by rw [hel, hcs]; rfl, by rw [hel, hxs]; simp, hf, hb, ?_⟩
        intro h1
        have hcs0 : cs = [] := by
          have : (cells h l).length = 1 := by rw [← hcount]; exact h1
          rw [hcs] at this; simpa using this
        subst hcs0
        have hxs0 : xs = [] ∧ d = c := by
          rw [hcs] at hxs
          rcases xs with _ | ⟨x, xs⟩
          · simp at hxs; exact ⟨rfl, hxs.symm⟩
          · simp at hxs
        rw [ho.2.1, ho.2.2.1, hcs]
        exact ⟨rfl, by rw [hxs0.2]⟩

theorem C8_front_back_witness :
    Inv exHeap exList ∧ empty exList = false ∧
    ∃ x y, (elements exHeap exList).head? = some x ∧
      (elements exHeap exList).getLast? = some y ∧
      front exHeap exList = .ok (exHeap, exList) x ∧
      back exHeap exList = .ok (exHeap, exList) y ∧
      (size exList = 1 → exList.head = exList.tail ∧ x = y) :=
  ⟨by decide, by decide, (C8_front_back exHeap exList).2.2 (by decide) (by decide)⟩


/-! ## Equality of sequences -/

theorem allEq_iff {T : Type} [BEq T] (xs ys : List T) (hlen : xs.length = ys.length) :
    allEq xs ys = true ↔
      ∀ i, i < xs.length → ∃ x y, xs[i]? = some x ∧ ys[i]? = some y ∧ (x == y) = true := by
  induction xs generalizing ys with
  | nil => simp [allEq]
  | cons x xs ih =>
    cases ys with
    | nil => simp at hlen
    | cons y ys =>
      have hl : xs.length = ys.length := by simpa using hlen
      have ih1 := ih ys hl
      simp only [allEq, List.zipWith_cons_cons, List.all_cons, id_eq, Bool.and_eq_true] at ih1 ⊢
      rw [ih1]
      constructor
      · rintro ⟨hxy, hrest⟩ i hi
        cases i with
        | zero => exact ⟨x, y, by simp, by simp, hxy⟩
        | succ i => simpa using hrest i (by simpa using hi)
      · intro hall
        refine ⟨?_, fun i hi => ?_⟩
        · obtain ⟨a, b, ha, hb, hab⟩ := hall 0 (by simp)
          simp only [List.getElem?_cons_zero, Option.some.injEq] at ha hb
          rw [ha, hb]; exact hab
        · simpa using hall (i + 1) (by simpa using hi)

theorem eqLoop_dlseg {T : Type} [BEq T] {h : Heap T} (lhs : LList) {p q : Ptr}
    {as bs : List (Nat × T)} (ha : dlseg h p as none) (hb : dlseg h q bs none)
    (hlen : as.length = bs.length) (fuel : Nat) (hfuel : as.length < fuel) (b : Bool) :
    eqLoop h lhs fuel ⟨firstPtr as none⟩ ⟨firstPtr bs none⟩ b =
      some (.ok () (b && allEq (as.map Prod.snd) (bs.map Prod.snd))) := by
  induction as generalizing bs p q fuel b with
  | nil =>
    obtain ⟨k, rfl⟩ : ∃ k, fuel = k + 1 := ⟨fuel - 1, by simp at hfuel; omega⟩
    have hbs : bs = [] := by simpa using hlen.symm
    subst hbs
    simp [eqLoop, it_ne, end_, allEq]
  | cons c as ih =>
    obtain ⟨k, rfl⟩ : ∃ k, fuel = k + 1 := ⟨fuel - 1, by simp at hfuel; omega⟩
    cases bs with
    | nil => simp at hlen
    | cons d bs =>
      rw [dlseg_cons] at ha hb
      cases b with
      | false => simp [eqLoop]
      | true =>
        have hrec := ih ha.2 hb.2 (by simpa using hlen) k (by simpa using hfuel) (c.2 == d.2)
        simp only [eqLoop, it_ne, end_, firstPtr_cons, deref, postinc, preinc, ha.1, hb.1]
        simp only [bne_iff_ne, ne_eq, reduceCtorEq, not_false_eq_true, decide_True,
          Bool.and_self, ↓reduceIte, Bool.true_and]
        rw [hrec]
        simp [allEq]

theorem list_eq_owns {T : Type} [BEq T] {h : Heap T} {a b : LList}
    {as bs : List (Nat × T)} (ha : Owns h a as) (hb : Owns h b bs) (fuel : Nat)
    (hfuel : as.length < fuel) :
    list_eq fuel h a b =
      some (.ok () (as.length == bs.length && allEq (as.map Prod.snd) (bs.map Prod.snd))) := by
  unfold list_eq
  by_cases hlen : as.length = bs.length
  · rw [begin, begin, ha.2.1, hb.2.1, size, size, ha.2.2.2.1, hb.2.2.2.1]
    exact eqLoop_dlseg a ha.2.2.2.2 hb.2.2.2.2 hlen fuel hfuel _
  · obtain ⟨k, rfl⟩ : ∃ k, fuel = k + 1 := ⟨fuel - 1, by omega⟩
    have hne : (size a == size b) = false := by
      simp [size, ha.2.2.2.1, hb.2.2.2.1, hlen]
    have hne2 : (as.length == bs.length) = false := by simp [hlen]
    rw [hne, hne2]
    simp [eqLoop]

/-- C9. For well-formed sequences `a` and `b`, `a == b` returns (given fuel for more
than `a.size()` tests of its loop condition) true exactly when
`a.size() == b.size()` and the elements at every index compare equal; `a != b`
returns the negation.  `{1,2,3} == {1,2,3}` is true, `{1,2,3} == {1,2}` and
`{1,2,3} == {3,2,1}` are false. -/
theorem C9_equality {T : Type} [BEq T] (h : Heap T) (a b : LList) (fuel : Nat)
    (ha : Inv h a) (hb : Inv h b) (hfuel : size a < fuel) :
    (∃ r, list_eq fuel h a b = some (.ok () r) ∧ list_ne fuel h a b = some (.ok () (!r)) ∧
      (r = true ↔ (size a = size b ∧ ∀ i, i < size a →
        ∃ x y, (elements h a)[i]? = some x ∧ (elements h b)[i]? = some y ∧
          (x == y) = true))) ∧
    (∀ (g : Heap Int) (m n : LList), Inv g m → Inv g n → elements g m = [1, 2, 3] →
      (elements g n = [1, 2, 3] → list_eq 4 g m n = some (.ok () true)) ∧
      (elements g n = [1, 2] → list_eq 4 g m n = some (.ok () false)) ∧
      (elements g n = [3, 2, 1] → list_eq 4 g m n = some (.ok () false))) := by
  constructor
  · have hoa := ha.owns
    have hob := hb.owns
    have he := list_eq_owns hoa hob fuel (by rw [← hoa.2.2.2.1]; exact hfuel)
    refine ⟨_, he, by simp [list_ne, he], ?_⟩
    rw [Bool.and_eq_true, beq_iff_eq, size, size, hoa.2.2.2.1, hob.2.2.2.1]
    constructor
    · rintro ⟨hlen, hall⟩
      refine ⟨hlen, ?_⟩
      have := (allEq_iff _ _ (by simpa using hlen)).1 hall
      simpa [elements] using this
    · rintro ⟨hlen, hall⟩
      refine ⟨hlen, (allEq_iff _ _ (by simpa using hlen)).2 ?_⟩
      simpa [elements] using hall
  · intro g m n hm hn hem
    have hom := hm.owns
    have hon := hn.owns
    have hlm : (cells g m).length = 3 := by
      have := congrArg List.length hem; simpa [elements] using this
    have he := list_eq_owns hom hon 4 (by omega)
    rw [← hom.elements_eq, ← hon.elements_eq, hem, hlm] at he
    refine ⟨fun h1 => ?_, fun h1 => ?_, fun h1 => ?_⟩
    · have hln : (cells g n).length = 3 := by
        have := congrArg List.length h1; simpa [elements] using this
      rw [he, h1, hln]; rfl
    · have hln : (cells g n).length = 2 := by
        have := congrArg List.length h1; simpa [elements] using this
      rw [he, h1, hln]; rfl
    · have hln : (cells g n).length = 3 := by
        have := congrArg List.length h1; simpa [elements] using this
      rw [he, h1, hln]; rfl

theorem C9_equality_witness :
    Inv exHeap exList ∧ size exList < 4 ∧
    ∃ r, list_eq 4 exHeap exList exList = some (.ok () r) ∧
      list_ne 4 exHeap exList exList = some (.ok () (!r)) ∧
      (r = true ↔ (size exList = size exList ∧ ∀ i, i < size exList →
        ∃ x y, (elements exHeap exList)[i]? = some x ∧
          (elements exHeap exList)[i]? = some y ∧ (x == y) = true)) :=
  ⟨by decide, by decide, (C9_equality exHeap exList exList 4 (by decide) (by decide)
    (by decide)).1⟩


/-! ## Copies and what later calls leave of the source -/

theorem Frame.refl {T : Type} (h : Heap T) (cs : List (Nat × T)) : Frame h h cs :=
  ⟨le_refl _, fun _ _ _ => rfl⟩

theorem Owns.of_frame {T : Type} {h h1 : Heap T} {a : LList} {as cs : List (Nat × T)}
    (ho : Owns h a as) (hf : Frame h h1 cs)
    (hdis : ∀ x ∈ as.map Prod.fst, x ∉ cs.map Prod.fst) : Owns h1 a as := by
  refine ⟨ho.1, ho.2.1, ho.2.2.1, ho.2.2.2.1, dlseg_frame ?_ ho.2.2.2.2⟩
  intro c hc
  have hm := List.mem_map_of_mem Prod.fst hc
  exact hf.2 c.1 (ho.lt _ hm) (hdis _ hm)

theorem copyLoop_owns {T : Type} {h : Heap T} {l : LList} {ls ys : List (Nat × T)} {p : Ptr}
    (ho : Owns h l ls) (hsrc : dlseg h p ys none)
    (hdisj : ∀ x ∈ ys.map Prod.fst, x ∉ ls.map Prod.fst) (fuel : Nat)
    (hfuel : ys.length < fuel) :
    ∃ h1 l1 cs, copyLoop fuel h l (firstPtr ys none) = some (.ok (h1, l1) ()) ∧
      Owns h1 l1 cs ∧ cs.map Prod.snd = ls.map Prod.snd ++ ys.map Prod.snd ∧
      Frame h h1 ls ∧ (∀ x ∈ cs.map Prod.fst, x ∈ ls.map Prod.fst ∨ h.length ≤ x) := by
  induction ys generalizing h l ls p fuel with
  | nil =>
    obtain ⟨k, rfl⟩ : ∃ k, fuel = k + 1 := ⟨fuel - 1, by simp at hfuel; omega⟩
    exact ⟨h, l, ls, by simp [copyLoop], ho, by simp, Frame.refl h ls, fun x hx => Or.inl hx⟩
  | cons c ys ih =>
    obtain ⟨k, rfl⟩ : ∃ k, fuel = k + 1 := ⟨fuel - 1, by simp at hfuel; omega⟩
    have hlt := dlseg_lt hsrc
    rw [dlseg_cons] at hsrc
    obtain ⟨h1, l1, he, ho1, hf⟩ := push_back_owns ho c.2
    have hc1 : lookup h1 (some c.1) = lookup h (some c.1) :=
      hf.2 c.1 (hlt _ (by simp)) (hdisj _ (by simp))
    have hsrc1 : dlseg h1 (some c.1) ys none := by
      refine dlseg_frame ?_ hsrc.2
      intro d hd
      have hm := List.mem_map_of_mem Prod.fst hd
      exact hf.2 d.1 (hlt _ (by simp [hm])) (hdisj _ (by simp [hm]))
    have hdisj1 : ∀ x ∈ ys.map Prod.fst, x ∉ (ls ++ [(h.length, c.2)]).map Prod.fst := by
      intro x hx hmem
      simp only [List.map_append, List.map_cons, List.map_nil, List.mem_append,
        List.mem_singleton] at hmem
      rcases hmem with hmem | hmem
      · exact hdisj x (by simp [hx]) hmem
      · have := hlt x (by simp [hx])
        omega
    obtain ⟨h2, l2, cs, he2, ho2, hel, hf2, haddr⟩ :=
      ih ho1 hsrc1 hdisj1 k (by simpa using hfuel)
    refine ⟨h2, l2, cs, ?_, ho2, by simpa using hel, ⟨le_trans hf.1 hf2.1, ?_⟩, ?_⟩
    · simp [copyLoop, hsrc.1, he, hc1, he2]
    · intro x hx hn
      rw [hf2.2 x (lt_of_lt_of_le hx hf.1) ?_, hf.2 x hx hn]
      simp only [List.map_append, List.map_cons, List.map_nil, List.mem_append,
        List.mem_singleton, not_or]
      exact ⟨hn, by omega⟩
    · intro x hx
      rcases haddr x hx with hmem | hge
      · simp only [List.map_append, List.map_cons, List.map_nil, List.mem_append,
          List.mem_singleton] at hmem
        rcases hmem with hmem | hmem
        · exact Or.inl hmem
        · exact Or.inr (by omega)
      · exact Or.inr (le_trans hf.1 hge)

/-- One call on a sequence that owns its chain: it runs without undefined
behaviour, the sequence owns its chain afterwards, the writes stay inside the old
chain and fresh addresses, and the new chain is made of old and fresh nodes. -/
theorem Call.run_owns {T : Type} {h : Heap T} {c : LList} {cs : List (Nat × T)}
    (ho : Owns h c cs) (call : Call T) :
    ∃ h1 c1 cs1, (call.run h c).state = some (h1, c1) ∧ Owns h1 c1 cs1 ∧ Frame h h1 cs ∧
      (∀ x ∈ cs1.map Prod.fst, x ∈ cs.map Prod.fst ∨ h.length ≤ x) := by
  cases call with
  | push_back v =>
    obtain ⟨h1, l1, he, ho1, hf⟩ := push_back_owns ho v
    refine ⟨h1, l1, _, by simp [Call.run, he, Res.state], ho1, hf, ?_⟩
    intro x hx
    simp only [List.map_append, List.map_cons, List.map_nil, List.mem_append,
      List.mem_singleton] at hx
    rcases hx with hx | hx
    · exact Or.inl hx
    · exact Or.inr (by omega)
  | push_front v =>
    obtain ⟨h1, l1, he, ho1, hf⟩ := push_front_owns ho v
    refine ⟨h1, l1, _, by simp [Call.run, he, Res.state], ho1, hf, ?_⟩
    intro x hx
    simp only [List.map_cons, List.mem_cons] at hx
    rcases hx with hx | hx
    · exact Or.inr (by omega)
    · exact Or.inl hx
  | pop_back =>
    rcases List.eq_nil_or_concat cs with rfl | ⟨xs, d, rfl⟩
    · have hc : c.count = 0 := by simpa using ho.2.2.2.1
      exact ⟨h, c, [], by simp [Call.run, DLL.pop_back, empty, hc, Res.state], ho, Frame.refl _ _,
        fun x hx => Or.inl hx⟩
    · rw [List.concat_eq_append] at *
      obtain ⟨h1, l1, he, ho1, hf, _⟩ := pop_back_owns ho
      exact ⟨h1, l1, xs, by simp [Call.run, he, Res.state], ho1, hf,
        fun x hx => Or.inl (by simp [List.mem_map.1 hx])⟩
  | pop_front =>
    cases cs with
    | nil =>
      have hc : c.count = 0 := by simpa using ho.2.2.2.1
      exact ⟨h, c, [], by simp [Call.run, DLL.pop_front, empty, hc, Res.state], ho, Frame.refl _ _,
        fun x hx => Or.inl hx⟩
    | cons d xs =>
      obtain ⟨h1, l1, he, ho1, hf, _⟩ := pop_front_owns ho
      exact ⟨h1, l1, xs, by simp [Call.run, he, Res.state], ho1, hf,
        fun x hx => Or.inl (by simp [List.mem_map.1 hx])⟩
  | insert i v =>
    have ho2 : Owns h c (cs.take i ++ cs.drop i) := by
      rw [List.take_append_drop]; exact ho
    obtain ⟨h1, l1, he, ho1, hf⟩ := insert_owns ho2 (cursorAt h c i)
      (by rw [ho.cursorAt_eq]) v
    rw [List.take_append_drop] at hf
    refine ⟨h1, l1, _, by simp [Call.run, he, Res.state], ho1, hf, ?_⟩
    intro x hx
    simp only [List.map_append, List.map_cons, List.mem_append, List.mem_cons] at hx
    rcases hx with hx | hx | hx
    · exact Or.inl (List.map_subset _ (List.take_subset i cs) hx)
    · exact Or.inr (by omega)
    · exact Or.inl (List.map_subset _ (List.drop_subset i cs) hx)
  | erase i =>
    by_cases hlen : i < cs.length
    · have hsplit : cs = cs.take i ++ cs[i] :: cs.drop (i + 1) := by
        rw [← List.drop_eq_getElem_cons hlen, List.take_append_drop]
      have ho2 : Owns h c (cs.take i ++ cs[i] :: cs.drop (i + 1)) := by
        rw [← hsplit]; exact ho
      obtain ⟨h1, l1, he, ho1, hf, _⟩ := erase_owns ho2
      have hcur : cursorAt h c i = ⟨some cs[i].1⟩ := by
        rw [ho.cursorAt_eq, List.drop_eq_getElem_cons hlen]; rfl
      rw [← hsplit] at hf
      refine ⟨h1, l1, _, by simp [Call.run, hcur, he, Res.state], ho1, hf, ?_⟩
      intro x hx
      simp only [List.map_append, List.mem_append] at hx
      rcases hx with hx | hx
      · exact Or.inl (List.map_subset _ (List.take_subset i cs) hx)
      · exact Or.inl (List.map_subset _ (List.drop_subset (i + 1) cs) hx)
    · have hcur : cursorAt h c i = end_ c := by
        rw [ho.cursorAt_eq, List.drop_eq_nil_of_le (by omega)]; rfl
      exact ⟨h, c, cs, by simp [Call.run, hcur, DLL.erase, Res.state], ho, Frame.refl _ _,
        fun x hx => Or.inl hx⟩
  | clear =>
    obtain ⟨h1, he, hf⟩ := clear_owns ho
    exact ⟨h1, mk_empty, [], by simp [Call.run, he, Res.state], owns_nil h1, hf, by simp⟩

theorem runCalls_owns {T : Type} (calls : List (Call T)) {h : Heap T} {c a : LList}
    {cs as : List (Nat × T)} (ho : Owns h c cs) (hoa : Owns h a as)
    (hdis : ∀ x ∈ as.map Prod.fst, x ∉ cs.map Prod.fst) :
    ∃ h2 c2 cs2, runCalls calls (h, c) = some (h2, c2) ∧ Owns h2 c2 cs2 ∧ Owns h2 a as := by
  induction calls generalizing h c cs with
  | nil => exact ⟨h, c, cs, rfl, ho, hoa⟩
  | cons call rest ih =>
    obtain ⟨h1, c1, cs1, he, ho1, hf, haddr⟩ := call.run_owns ho
    have hoa1 := hoa.of_frame hf hdis
    have hdis1 : ∀ x ∈ as.map Prod.fst, x ∉ cs1.map Prod.fst := by
      intro x hx hx1
      rcases haddr x hx1 with hmem | hge
      · exact hdis x hx hmem
      · have := hoa.lt x hx
        omega
    obtain ⟨h2, c2, cs2, he2, ho2, hoa2⟩ := ih ho1 hoa1 hdis1
    exact ⟨h2, c2, cs2, by simp [runCalls, he, he2], ho2, hoa2⟩

theorem copyOf_intro {T : Type} {h h1 : Heap T} {a c : LList} {as cs : List (Nat × T)}
    (hoa : Owns h a as) (hoa1 : Owns h1 a as) (hoc : Owns h1 c cs)
    (hel : cs.map Prod.snd = as.map Prod.snd)
    (hsame : ∀ x ∈ as.map Prod.fst, lookup h1 (some x) = lookup h (some x))
    (hdis : ∀ x ∈ as.map Prod.fst, x ∉ cs.map Prod.fst) : CopyOf h a h1 c := by
  refine ⟨hoc.inv, ?_, ?_, hoa1.inv, ?_, ?_, ?_⟩
  · rw [hoc.elements_eq, hoa.elements_eq, hel]
  · rw [hoa.elements_eq, size, hoc.2.2.2.1, ← List.length_map cs Prod.snd, hel]
  · rw [hoa.nodes_eq]; exact hsame
  · rw [hoa1.cells_eq, hoa.cells_eq]
  · intro calls
    obtain ⟨h2, c2, cs2, he, ho2, hoa2⟩ := runCalls_owns calls hoc hoa1 hdis
    exact ⟨h2, c2, he, ho2.inv, hoa2.inv, by rw [hoa2.cells_eq, hoa.cells_eq],
      by rw [hoa2.elements_eq, hoa.elements_eq]⟩

/-- C10. For a well-formed source `a` with elements `[e1..en]`, the copy constructor,
and copy-assignment into a well-formed sequence `t` that is another object (it
shares no node with `a`), whatever `t` held, return normally (given fuel for more
than `n` tests of the loop condition) with a well-formed sequence that has
exactly the elements `[e1..en]` in order and size `n`; the nodes, the chain and
the elements of `a` are as before; and whatever calls of `push_back`,
`push_front`, `pop_back`, `pop_front`, `insert`, `erase`, `clear` are then made on
the copy, `a` keeps its chain and its elements. -/
theorem C10_copy {T : Type} (h : Heap T) (a t : LList) (fuel : Nat)
    (ha : Inv h a) (ht : Inv h t) (hdis : ∀ x ∈ nodes h a, x ∉ nodes h t)
    (hfuel : size a < fuel) :
    (∃ h1 c, copy_ctor fuel h a = some (.ok (h1, c) ()) ∧ CopyOf h a h1 c) ∧
    (∃ h1 c, copy_assign fuel h t a true = some (.ok (h1, c) ()) ∧ CopyOf h a h1 c) := by
  have hoa := ha.owns
  have hot := ht.owns
  have hfuel1 : (cells h a).length < fuel := by rw [← hoa.2.2.2.1]; exact hfuel
  constructor
  · obtain ⟨h1, c, cs, he, hoc, hel, hf, haddr⟩ :=
      copyLoop_owns (owns_nil h) hoa.2.2.2.2 (by simp) fuel hfuel1
    have hoa1 : Owns h1 a (cells h a) := hoa.of_frame hf (by simp)
    refine ⟨h1, c, by rw [copy_ctor, hoa.2.1]; exact he, ?_⟩
    refine copyOf_intro hoa hoa1 hoc (by simpa using hel) ?_ ?_
    · intro x hx
      exact hf.2 x (hoa.lt x hx) (by simp)
    · intro x hx hx1
      rcases haddr x hx1 with hmem | hge
      · simp at hmem
      · have := hoa.lt x hx
        omega
  · obtain ⟨h0, he0, hf0⟩ := clear_owns hot
    have hdis0 : ∀ x ∈ (cells h a).map Prod.fst, x ∉ (cells h t).map Prod.fst := by
      intro x hx
      exact hdis x (by simpa [nodes] using hx)
    have hoa0 : Owns h0 a (cells h a) := hoa.of_frame hf0 hdis0
    have hfuel0 : (cells h a).length < fuel := hfuel1
    obtain ⟨h1, c, cs, he, hoc, hel, hf, haddr⟩ :=
      copyLoop_owns (owns_nil h0) hoa0.2.2.2.2 (by simp) fuel hfuel0
    have hoa1 : Owns h1 a (cells h a) := hoa0.of_frame hf (by simp)
    refine ⟨h1, c, by simp only [copy_assign, if_true, he0]; rw [hoa.2.1]; exact he, ?_⟩
    refine copyOf_intro hoa hoa1 hoc (by simpa using hel) ?_ ?_
    · intro x hx
      rw [hf.2 x (lt_of_lt_of_le (hoa.lt x hx) hf0.1) (by simp),
        hf0.2 x (hoa.lt x hx) (hdis0 x hx)]
    · intro x hx hx1
      rcases haddr x hx1 with hmem | hge
      · simp at hmem
      · have := hoa0.lt x hx
        omega

theorem C10_copy_witness :
    Inv exHeap2 exList ∧ Inv exHeap2 exOther ∧
    (∀ x ∈ nodes exHeap2 exList, x ∉ nodes exHeap2 exOther) ∧ size exList < 4 ∧
    (∃ h1 c, copy_ctor 4 exHeap2 exList = some (.ok (h1, c) ()) ∧
      CopyOf exHeap2 exList h1 c) ∧
    (∃ h1 c, copy_assign 4 exHeap2 exOther exList true = some (.ok (h1, c) ()) ∧
      CopyOf exHeap2 exList h1 c) :=
  ⟨by decide, by decide, by decide, by decide,
    C10_copy exHeap2 exList exOther 4 (by decide) (by decide) (by decide) (by decide)⟩

/-! ## Moves and round trips -/

theorem Owns.same_members {T : Type} {h h1 : Heap T} {l l1 : LList} {cs : List (Nat × T)}
    (ho : Owns h l cs) (ho1 : Owns h1 l1 cs) : l1 = l := by
  obtain ⟨_, hh, ht, hc, _⟩ := ho
  obtain ⟨_, hh1, ht1, hc1, _⟩ := ho1
  cases l; cases l1
  simp only [LList.mk.injEq]
  exact ⟨hh1.trans hh.symm, ht1.trans ht.symm, hc1.trans hc.symm⟩

/-- C11. For a well-formed source `a` with elements `[e1..en]`, move construction,
and move-assignment into a well-formed sequence `t` that is another object (it
shares no node with `a`), give a well-formed destination that has the chain of
`a`, so exactly the elements `[e1..en]` in order and size `n`, and leave `a` with
`head` and `tail` absent and `size() == 0`, the invariants holding of it. -/
theorem C11_move {T : Type} (h : Heap T) (a t : LList)
    (ha : Inv h a) (ht : Inv h t) (hdis : ∀ x ∈ nodes h a, x ∉ nodes h t) :
    (Inv h (move_ctor a).1 ∧ cells h (move_ctor a).1 = cells h a ∧
      elements h (move_ctor a).1 = elements h a ∧
      size (move_ctor a).1 = (elements h a).length ∧
      (move_ctor a).2.head = none ∧ (move_ctor a).2.tail = none ∧
      size (move_ctor a).2 = 0 ∧ Inv h (move_ctor a).2) ∧
    (∃ h1 d a1, move_assign h t a true = .ok (h1, d, a1) () ∧
      Inv h1 d ∧ cells h1 d = cells h a ∧ elements h1 d = elements h a ∧
      size d = (elements h a).length ∧
      a1.head = none ∧ a1.tail = none ∧ size a1 = 0 ∧ Inv h1 a1) := by
  have hoa := ha.owns
  have hot := ht.owns
  have hlen : a.count = (elements h a).length := by
    rw [hoa.elements_eq, List.length_map]; exact hoa.2.2.2.1
  constructor
  · have e1 : (move_ctor a).1 = a := rfl
    rw [e1]
    exact ⟨ha, rfl, rfl, hlen, rfl, rfl, rfl, (owns_nil h).inv⟩
  · obtain ⟨h1, he, hf⟩ := clear_owns hot
    have hdis0 : ∀ x ∈ (cells h a).map Prod.fst, x ∉ (cells h t).map Prod.fst := by
      intro x hx
      exact hdis x (by simpa [nodes] using hx)
    have hoa1 : Owns h1 a (cells h a) := hoa.of_frame hf hdis0
    have e1 : (⟨a.head, a.tail, a.count⟩ : LList) = a := rfl
    refine ⟨h1, a, mk_empty, ?_, hoa1.inv, hoa1.cells_eq, ?_, hlen, rfl, rfl, rfl,
      (owns_nil h1).inv⟩
    · simp only [move_assign, if_true, he, e1]; rfl
    · rw [hoa1.elements_eq, hoa.elements_eq]

theorem C11_move_witness :
    Inv exHeap2 exList ∧ Inv exHeap2 exOther ∧
    (∀ x ∈ nodes exHeap2 exList, x ∉ nodes exHeap2 exOther) ∧
    ∃ h1 d a1, move_assign exHeap2 exOther exList true = .ok (h1, d, a1) () ∧
      Inv h1 d ∧ cells h1 d = cells exHeap2 exList ∧
      elements h1 d = elements exHeap2 exList ∧
      size d = (elements exHeap2 exList).length ∧
      a1.head = none ∧ a1.tail = none ∧ size a1 = 0 ∧ Inv h1 a1 :=
  ⟨by decide, by decide, by decide,
    (C11_move exHeap2 exList exOther (by decide) (by decide) (by decide)).2⟩

/-- C12. On a well-formed sequence (non-empty or not), `push_back(x)` followed by
`pop_back()` runs without an error and gives back the original sequence: the
same `head`, `tail` and `count`, the same chain of nodes, the same elements in the
same order; and so does `push_front(x)` followed by `pop_front()`. -/
theorem C12_push_pop {T : Type} (h : Heap T) (l : LList) (x : T) (hi : Inv h l) :
    (∃ h1 l1 h2 l2, push_back h l x = .ok (h1, l1) () ∧ pop_back h1 l1 = .ok (h2, l2) () ∧
      l2 = l ∧ Inv h2 l2 ∧ cells h2 l2 = cells h l ∧ elements h2 l2 = elements h l ∧
      size l2 = size l) ∧
    (∃ h1 l1 h2 l2, push_front h l x = .ok (h1, l1) () ∧ pop_front h1 l1 = .ok (h2, l2) () ∧
      l2 = l ∧ Inv h2 l2 ∧ cells h2 l2 = cells h l ∧ elements h2 l2 = elements h l ∧
      size l2 = size l) := by
  have ho := hi.owns
  constructor
  · obtain ⟨h1, l1, he1, ho1, _⟩ := push_back_owns ho x
    obtain ⟨h2, l2, he2, ho2, _⟩ := pop_back_owns ho1
    have hl : l2 = l := ho.same_members ho2
    refine ⟨h1, l1, h2, l2, he1, he2, hl, ho2.inv, ho2.cells_eq, ?_, by rw [hl]⟩
    rw [ho2.elements_eq, ho.elements_eq]
  · obtain ⟨h1, l1, he1, ho1, _⟩ := push_front_owns ho x
    obtain ⟨h2, l2, he2, ho2, _⟩ := pop_front_owns ho1
    have hl : l2 = l := ho.same_members ho2
    refine ⟨h1, l1, h2, l2, he1, he2, hl, ho2.inv, ho2.cells_eq, ?_, by rw [hl]⟩
    rw [ho2.elements_eq, ho.elements_eq]

theorem C12_push_pop_witness :
    Inv exHeap exList ∧
    ∃ h1 l1 h2 l2, push_back exHeap exList 7 = .ok (h1, l1) () ∧
      pop_back h1 l1 = .ok (h2, l2) () ∧
      l2 = exList ∧ Inv h2 l2 ∧ cells h2 l2 = cells exHeap exList ∧
      elements h2 l2 = elements exHeap exList ∧ size l2 = size exList :=
  ⟨by decide, (C12_push_pop exHeap exList 7 (by decide)).1⟩

/-! ## Cursors that survive an erase, and clearing -/

theorem filter_ne_split {T : Type} (xs ys : List (Nat × T)) (c : Nat × T)
    (hnd : ((xs ++ c :: ys).map Prod.fst).Nodup) :
    (xs ++ c :: ys).filter (fun d => decide (d.1 ≠ c.1)) = xs ++ ys := by
  rw [List.map_append, List.map_cons] at hnd
  have hmid := (@List.nodup_middle Nat c.1 (xs.map Prod.fst) (ys.map Prod.fst)).1 hnd
  rw [List.nodup_cons, List.mem_append, not_or] at hmid
  have hx : xs.filter (fun d => decide (d.1 ≠ c.1)) = xs := by
    rw [List.filter_eq_self]
    intro d hd
    have : d.1 ≠ c.1 := fun e => hmid.1.1 (e ▸ List.mem_map_of_mem Prod.fst hd)
    simpa using this
  have hy : ys.filter (fun d => decide (d.1 ≠ c.1)) = ys := by
    rw [List.filter_eq_self]
    intro d hd
    have : d.1 ≠ c.1 := fun e => hmid.1.2 (e ▸ List.mem_map_of_mem Prod.fst hd)
    simpa using this
  rw [List.filter_append, List.filter_cons, hx, hy]
  simp

/-- C13. On a well-formed sequence, `erase` at the live position of node `a` leaves
every other node `b` of the sequence in the chain reachable from `head`, holding
the element it held, and the chain afterwards is the old chain without `a`, the
remaining nodes in the order they had. -/
theorem C13_erase_keeps_cursors {T : Type} (h : Heap T) (l : LList) (a b : Nat)
    (hi : Inv h l) (ha : a ∈ nodes h l) (hb : b ∈ nodes h l) (hab : b ≠ a) :
    ∃ h1 l1 it, erase h l ⟨some a⟩ = .ok (h1, l1) it ∧ Inv h1 l1 ∧
      b ∈ nodes h1 l1 ∧ IsPos h1 l1 ⟨some b⟩ ∧
      (∃ v, deref h ⟨some b⟩ = .ok ⟨some b⟩ v ∧ deref h1 ⟨some b⟩ = .ok ⟨some b⟩ v) ∧
      cells h1 l1 = (cells h l).filter (fun d => decide (d.1 ≠ a)) ∧
      nodes h1 l1 = (nodes h l).filter (fun x => decide (x ≠ a)) := by
  have ho := hi.owns
  rw [ho.nodes_eq] at ha hb
  obtain ⟨c, hc, rfl⟩ := List.mem_map.1 ha
  obtain ⟨d, hd, rfl⟩ := List.mem_map.1 hb
  obtain ⟨xs, ys, hcs⟩ := List.append_of_mem hc
  have ho2 : Owns h l (xs ++ c :: ys) := hcs ▸ ho
  obtain ⟨h1, l1, he, ho1, _, _⟩ := erase_owns ho2
  have hfil : (cells h l).filter (fun e => decide (e.1 ≠ c.1)) = xs ++ ys := by
    rw [hcs]; exact filter_ne_split xs ys c ho2.1
  have hd1 : d ∈ xs ++ ys := by
    rw [← hfil, List.mem_filter]
    exact ⟨hd, by simpa using hab⟩
  have hbn : d.1 ∈ nodes h1 l1 := by
    rw [ho1.nodes_eq]; exact List.mem_map_of_mem Prod.fst hd1
  refine ⟨h1, l1, _, he, ho1.inv, hbn, Or.inr ⟨d.1, hbn, rfl⟩,
    ⟨d.2, ho.deref_eq hd, ho1.deref_eq hd1⟩, ?_, ?_⟩
  · rw [ho1.cells_eq, hfil]
  · rw [ho1.nodes_eq, ho.nodes_eq, ← hfil, List.filter_map]
    rfl

theorem C13_erase_keeps_cursors_witness :
    Inv exHeap exList ∧ 0 ∈ nodes exHeap exList ∧ 1 ∈ nodes exHeap exList ∧
    ∃ h1 l1 it, erase exHeap exList ⟨some 0⟩ = .ok (h1, l1) it ∧ Inv h1 l1 ∧
      1 ∈ nodes h1 l1 ∧ IsPos h1 l1 ⟨some 1⟩ ∧
      (∃ v, deref exHeap ⟨some 1⟩ = .ok ⟨some 1⟩ v ∧ deref h1 ⟨some 1⟩ = .ok ⟨some 1⟩ v) ∧
      cells h1 l1 = (cells exHeap exList).filter (fun d => decide (d.1 ≠ 0)) ∧
      nodes h1 l1 = (nodes exHeap exList).filter (fun x => decide (x ≠ 0)) :=
  ⟨by decide, by decide, by decide,
    C13_erase_keeps_cursors exHeap exList 0 1 (by decide) (by decide) (by decide) (by decide)⟩

theorem pop_front_count {T : Type} {h h1 : Heap T} {l l1 : LList} {u : Unit}
    (he : pop_front h l = .ok (h1, l1) u) : l1.count = l.count - 1 := by
  unfold pop_front at he
  split at he
  · exact Res.noConfusion he
  · simp only at he
    split at he
    · exact Res.noConfusion he
    · split at he
      · exact Res.noConfusion he
      · split at he
        · exact Res.noConfusion he
        · simp only [Res.ok.injEq, Prod.mk.injEq] at he
          rw [← he.1.2]

/-- The loop of `clear` makes at most `count` rounds: more fuel changes nothing. -/
theorem clearLoop_fuel {T : Type} (n : Nat) :
    ∀ (h : Heap T) (l : LList) (fuel : Nat), l.count = n → n ≤ fuel →
      clearLoop fuel h l = clearLoop n h l := by
  induction n with
  | zero =>
    intro h l fuel hc _
    cases fuel with
    | zero => rfl
    | succ k => simp [clearLoop, empty, hc]
  | succ n ih =>
    intro h l fuel hc hle
    obtain ⟨k, rfl⟩ : ∃ k, fuel = k + 1 := ⟨fuel - 1, by omega⟩
    have hemp : empty l = false := by simp [empty, hc]
    simp only [clearLoop, hemp, Bool.not_false, if_true]
    cases hp : pop_front h l with
    | ok s u =>
      obtain ⟨h1, l1⟩ := s
      have hc1 : l1.count = n := by rw [pop_front_count hp, hc]; rfl
      simp only
      exact ih h1 l1 k hc1 (by omega)
    | throw e s => rfl
    | fault => rfl

theorem clearLoop_released {T : Type} {h : Heap T} {l : LList} {cs : List (Nat × T)}
    (ho : Owns h l cs) (fuel : Nat) (hfuel : cs.length ≤ fuel) :
    ∃ h1, clearLoop fuel h l = .ok (h1, mk_empty) () ∧ Frame h h1 cs ∧
      ∀ a ∈ cs.map Prod.fst, lookup h1 (some a) = none := by
  induction cs generalizing h l fuel with
  | nil =>
    obtain ⟨h1, he, hf⟩ := clearLoop_owns ho fuel hfuel
    exact ⟨h1, he, hf, by simp⟩
  | cons c cs ih =>
    obtain ⟨h1, l1, he, ho1, hf, hgone⟩ := pop_front_owns ho
    obtain ⟨fuel, rfl⟩ : ∃ k, fuel = k + 1 := ⟨fuel - 1, by simp at hfuel; omega⟩
    obtain ⟨h2, he2, hf2, hgone2⟩ := ih ho1 fuel (by simpa using hfuel)
    have hemp : empty l = false := by simp [empty, ho.2.2.2.1]
    have hnd := ho.1
    rw [List.map_cons, List.nodup_cons] at hnd
    refine ⟨h2, by simp [clearLoop, hemp, he, he2], ⟨le_trans hf.1 hf2.1, fun a ha hn => ?_⟩, ?_⟩
    · rw [hf2.2 a (lt_of_lt_of_le ha hf.1) (fun hm => hn (by simp [hm])), hf.2 a ha hn]
    · intro a ha
      rw [List.map_cons, List.mem_cons] at ha
      rcases ha with rfl | ha
      · rw [hf2.2 c.1 (lt_of_lt_of_le (ho.lt c.1 (by simp)) hf.1) hnd.1]
        exact hgone
      · exact hgone2 a ha

/-- C14. On a well-formed sequence `clear()` returns normally, nothing thrown, and
leaves `head` absent, `tail` absent and `count == 0`, every node of the old chain
released; called again on the result, or on a default-constructed sequence, it
returns normally and changes nothing.  On every state the loop makes at most
`count` rounds, so more fuel than that gives the same outcome. -/
theorem C14_clear {T : Type} (h : Heap T) (l : LList) :
    (Inv h l → ∃ h1 l1, clear h l = .ok (h1, l1) () ∧
      l1.head = none ∧ l1.tail = none ∧ l1.count = 0 ∧ l1 = mk_empty ∧ Inv h1 l1 ∧
      (∀ a ∈ nodes h l, lookup h1 (some a) = none) ∧
      clear h1 l1 = .ok (h1, l1) ()) ∧
    clear h mk_empty = .ok (h, mk_empty) () ∧
    (∀ fuel, l.count ≤ fuel → clearLoop fuel h l = clear h l) := by
  refine ⟨fun hi => ?_, rfl, fun fuel hle => clearLoop_fuel l.count h l fuel rfl hle⟩
  have ho := hi.owns
  obtain ⟨h1, he, _, hgone⟩ := clearLoop_released ho l.count (le_of_eq ho.2.2.2.1.symm)
  refine ⟨h1, mk_empty, he, rfl, rfl, rfl, rfl, (owns_nil h1).inv, ?_, rfl⟩
  rw [ho.nodes_eq]; exact hgone

theorem C14_clear_witness :
    Inv exHeap exList ∧
    ∃ h1 l1, clear exHeap exList = .ok (h1, l1) () ∧
      l1.head = none ∧ l1.tail = none ∧ l1.count = 0 ∧ l1 = mk_empty ∧ Inv h1 l1 ∧
      (∀ a ∈ nodes exHeap exList, lookup h1 (some a) = none) ∧
      clear h1 l1 = .ok (h1, l1) () :=
  ⟨by decide, (C14_clear exHeap exList).1 (by decide)⟩

/-! ## Cursor moves -/

theorem Owns.lookup_at {T : Type} {h : Heap T} {l : LList} {xs ys : List (Nat × T)}
    {c : Nat × T} (ho : Owns h l (xs ++ c :: ys)) :
    lookup h (some c.1) = some ⟨c.2, lastPtr none xs, firstPtr ys none⟩ := by
  have hseg := ho.2.2.2.2
  rw [dlseg_append, dlseg_cons] at hseg
  exact hseg.2.1

theorem lastPtr_take_succ {T : Type} (cs : List (Nat × T)) (i : Nat) (hlt : i < cs.length)
    (p : Ptr) : lastPtr p (cs.take (i + 1)) = some cs[i].1 := by
  induction cs generalizing i p with
  | nil => simp at hlt
  | cons c cs ih =>
    cases i with
    | zero => simp
    | succ j =>
      have hj : j < cs.length := by simpa using hlt
      simpa using ih j hj (some c.1)

theorem Owns.split_at {T : Type} {h : Heap T} {l : LList} {cs : List (Nat × T)}
    (ho : Owns h l cs) (i : Nat) (hlt : i < cs.length) :
    Owns h l (cs.take i ++ cs[i] :: cs.drop (i + 1)) ∧ cursorAt h l i = ⟨some cs[i].1⟩ := by
  have hsplit : cs = cs.take i ++ cs[i] :: cs.drop (i + 1) := by
    rw [← List.drop_eq_getElem_cons hlt, List.take_append_drop]
  refine ⟨hsplit ▸ ho, ?_⟩
  rw [ho.cursorAt_eq, List.drop_eq_getElem_cons hlt]; rfl

theorem Owns.cursorAt_end {T : Type} {h : Heap T} {l : LList} {cs : List (Nat × T)}
    (ho : Owns h l cs) (i : Nat) (hle : cs.length ≤ i) : cursorAt h l i = end_ l := by
  rw [ho.cursorAt_eq, List.drop_eq_nil_of_le hle]; rfl

theorem Owns.preinc_eq {T : Type} {h : Heap T} {l : LList} {cs : List (Nat × T)}
    (ho : Owns h l cs) (i : Nat) :
    preinc h (cursorAt h l i) = .ok (cursorAt h l (i + 1)) (cursorAt h l (i + 1)) := by
  by_cases hlt : i < cs.length
  · obtain ⟨ho2, hcur⟩ := ho.split_at i hlt
    rw [hcur, ho.cursorAt_eq (i + 1)]
    simp [preinc, ho2.lookup_at]
  · rw [ho.cursorAt_end i (by omega), ho.cursorAt_end (i + 1) (by omega)]
    simp [preinc, end_]

/-- C15. For the cursor at index `i` of a well-formed sequence (a live position when
`i < size()`, `end()` otherwise), prefix and postfix increment return normally and
leave the cursor at index `i + 1`: the position of the next node when there is
one, `end()` when the cursor was on the last node, and `end()` again when it was
`end()` already.  Prefix increment returns the advanced cursor, postfix increment
the cursor as it was before. -/
theorem C15_increment {T : Type} (h : Heap T) (l : LList) (i : Nat) (hi : Inv h l) :
    preinc h (cursorAt h l i) = .ok (cursorAt h l (i + 1)) (cursorAt h l (i + 1)) ∧
    postinc h (cursorAt h l i) = .ok (cursorAt h l (i + 1)) (cursorAt h l i) ∧
    (i + 1 < size l → ∃ a, (nodes h l)[i + 1]? = some a ∧
      (cursorAt h l (i + 1)).current = some a ∧
      nextAt h (cursorAt h l i).current = some (some a)) ∧
    (i + 1 = size l → (cursorAt h l i).current ≠ none ∧ cursorAt h l (i + 1) = end_ l) ∧
    (size l ≤ i → cursorAt h l i = end_ l ∧ cursorAt h l (i + 1) = end_ l) ∧
    preinc h (end_ l) = .ok (end_ l) (end_ l) ∧
    postinc h (end_ l) = .ok (end_ l) (end_ l) := by
  have ho := hi.owns
  have hcount : size l = (cells h l).length := ho.2.2.2.1
  have hpre := ho.preinc_eq i
  refine ⟨hpre, by simp [postinc, hpre], ?_, ?_, ?_, by simp [preinc, end_],
    by simp [postinc, preinc, end_]⟩
  · intro hlt
    rw [hcount] at hlt
    obtain ⟨ho2, hcur⟩ := ho.split_at i (by omega)
    obtain ⟨_, hcur1⟩ := ho.split_at (i + 1) hlt
    refine ⟨(cells h l)[i + 1].1, ?_, by rw [hcur1], ?_⟩
    · rw [ho.nodes_eq, List.getElem?_map, List.getElem?_eq_getElem hlt]; rfl
    · rw [hcur, nextAt, ho2.lookup_at, List.drop_eq_getElem_cons hlt]; rfl
  · intro heq
    rw [hcount] at heq
    obtain ⟨_, hcur⟩ := ho.split_at i (by omega)
    exact ⟨by rw [hcur]; simp, ho.cursorAt_end (i + 1) (by omega)⟩
  · intro hle
    rw [hcount] at hle
    exact ⟨ho.cursorAt_end i hle, ho.cursorAt_end (i + 1) (by omega)⟩

theorem C15_increment_witness :
    Inv exHeap exList ∧
    preinc exHeap (cursorAt exHeap exList 2) =
      .ok (cursorAt exHeap exList (2 + 1)) (cursorAt exHeap exList (2 + 1)) ∧
    postinc exHeap (cursorAt exHeap exList 2) =
      .ok (cursorAt exHeap exList (2 + 1)) (cursorAt exHeap exList 2) :=
  ⟨by decide, (C15_increment exHeap exList 2 (by decide)).1,
    (C15_increment exHeap exList 2 (by decide)).2.1⟩

/-- C16. Dereferencing a cursor throws exactly when the cursor is off-the-end, what
it throws is the out-of-range error, and the cursor at the throw is the cursor
before the call; on a cursor that references a live node it returns the element
stored in that node and leaves the cursor as it was (the call writes nothing to
the heap); so on a well-formed sequence the cursor at index `i` dereferences to
the element at index `i`. -/
theorem C16_deref {T : Type} (h : Heap T) (it : BiDirectionalIterator) :
    (∀ e s, deref h it = .throw e s ↔
      (it.current = none ∧ e = .out_of_range ∧ s = it)) ∧
    (∀ n, lookup h it.current = some n → deref h it = .ok it n.data) ∧
    (∀ (l : LList) (i : Nat) (x : T), Inv h l → (elements h l)[i]? = some x →
      (cursorAt h l i).current ≠ none ∧
      deref h (cursorAt h l i) = .ok (cursorAt h l i) x) := by
  refine ⟨?_, ?_, ?_⟩
  · intro e s
    unfold deref
    by_cases hc : it.current = none
    · simp only [hc, if_true, Res.throw.injEq, true_and]
      constructor
      · rintro ⟨rfl, rfl⟩; exact ⟨rfl, rfl⟩
      · rintro ⟨rfl, rfl⟩; exact ⟨rfl, rfl⟩
    · simp only [hc, if_false, false_and, iff_false]
      split <;> simp
  · intro n hn
    have hc : it.current ≠ none := by
      intro e; rw [e] at hn; simp [lookup] at hn
    simp [deref, hc, hn]
  · intro l i x hi hx
    have ho := hi.owns
    rw [ho.elements_eq, List.getElem?_map] at hx
    have hlt : i < (cells h l).length := by
      by_contra hcon
      rw [List.getElem?_eq_none (by omega)] at hx
      exact Option.noConfusion hx
    rw [List.getElem?_eq_getElem hlt] at hx
    obtain ⟨_, hcur⟩ := ho.split_at i hlt
    have hx2 : (cells h l)[i].2 = x := by simpa using hx
    rw [hcur, ← hx2]
    exact ⟨by simp, ho.deref_eq (List.getElem_mem hlt)⟩

theorem C16_deref_witness :
    Inv exHeap exList ∧ (elements exHeap exList)[1]? = some 1 ∧
    (cursorAt exHeap exList 1).current ≠ none ∧
    deref exHeap (cursorAt exHeap exList 1) = .ok (cursorAt exHeap exList 1) 1 :=
  ⟨by decide, by decide,
    (C16_deref exHeap (cursorAt exHeap exList 1)).2.2 exList 1 1 (by decide) (by decide)⟩

/-! ## Decrements at the boundary, round trips, safety of equality -/

theorem Owns.begin_lookup {T : Type} {h : Heap T} {l : LList} {c : Nat × T}
    {cs : List (Nat × T)} (ho : Owns h l (c :: cs)) :
    begin l = ⟨some c.1⟩ ∧ lookup h (some c.1) = some ⟨c.2, none, firstPtr cs none⟩ := by
  have hseg := ho.2.2.2.2
  rw [dlseg_cons] at hseg
  exact ⟨by rw [begin, ho.2.1]; rfl, hseg.1⟩

/-- C17, as the code has it.  On a well-formed non-empty sequence, prefix decrement
of the cursor on the first element returns normally and leaves the cursor
off-the-end (it takes the absent `prev` link of the first node): the cursor then
equals `end()`, differs from `begin()`, and dereferencing it throws out-of-range. -/
theorem C17_predec_at_first {T : Type} (h : Heap T) (l : LList)
    (hi : Inv h l) (hne : empty l = false) :
    predec h (begin l) = .ok (end_ l) (end_ l) ∧
    it_eq (end_ l) (end_ l) = true ∧ it_eq (end_ l) (begin l) = false ∧
    deref h (end_ l) = .throw .out_of_range (end_ l) := by
  have ho := hi.owns
  cases hcs : cells h l with
  | nil =>
    have : l.count = 0 := by rw [ho.2.2.2.1, hcs]; rfl
    simp [empty, this] at hne
  | cons c cs =>
    rw [hcs] at ho
    obtain ⟨hb, hl⟩ := ho.begin_lookup
    refine ⟨?_, rfl, ?_, rfl⟩
    · rw [hb]; simp [predec, hl, end_]
    · rw [hb]; simp [it_eq, end_]

theorem C17_predec_at_first_witness :
    Inv exHeap exList ∧ empty exList = false ∧
    predec exHeap (begin exList) = .ok (end_ exList) (end_ exList) ∧
    it_eq (end_ exList) (end_ exList) = true ∧ it_eq (end_ exList) (begin exList) = false ∧
    deref exHeap (end_ exList) = .throw .out_of_range (end_ exList) :=
  ⟨by decide, by decide, C17_predec_at_first exHeap exList (by decide) (by decide)⟩

/-- C17, as the claim has it, fails on the sequence `[0, 1, 2]`: the sequence is
well-formed and non-empty, yet prefix decrement of `begin()` does not leave a
cursor equal to `begin()`; it leaves the off-the-end cursor. -/
theorem C17_counterexample :
    Inv exHeap exList ∧ empty exList = false ∧
    predec exHeap (begin exList) = .ok ⟨none⟩ ⟨none⟩ ∧
    ¬ ∃ it v, predec exHeap (begin exList) = .ok it v ∧ it_eq it (begin exList) = true := by
  refine ⟨by decide, by decide, by decide, ?_⟩
  rintro ⟨it, v, he, hq⟩
  have hp : predec exHeap (begin exList) = .ok ⟨none⟩ ⟨none⟩ := by decide
  rw [hp] at he
  simp only [Res.ok.injEq] at he
  rw [← he.1] at hq
  exact absurd hq (by decide)

/-- C18. Postfix decrement throws exactly when the cursor is off-the-end or on a
node without a predecessor, what it throws is the out-of-range error, and the
cursor at the throw is the cursor before the call; on a live node with a
predecessor it moves the cursor to that predecessor and returns the cursor as
it was.  So on a well-formed sequence it throws at `end()` and at the first
element, and from the node at index `i + 1` it moves to the node at index `i`. -/
theorem C18_postdec {T : Type} (h : Heap T) (it : BiDirectionalIterator) :
    (∀ e s, postdec h it = .throw e s ↔
      ((it.current = none ∨ prevAt h it.current = some none) ∧
        e = .out_of_range ∧ s = it)) ∧
    (∀ n, lookup h it.current = some n → n.prev ≠ none →
      postdec h it = .ok ⟨n.prev⟩ it) ∧
    (∀ l : LList, Inv h l →
      postdec h (end_ l) = .throw .out_of_range (end_ l) ∧
      (empty l = false → postdec h (begin l) = .throw .out_of_range (begin l)) ∧
      (∀ i, i + 1 < size l →
        (cursorAt h l i).current ≠ none ∧
        postdec h (cursorAt h l (i + 1)) = .ok (cursorAt h l i) (cursorAt h l (i + 1)))) := by
  refine ⟨?_, ?_, ?_⟩
  · intro e s
    unfold postdec
    by_cases hc : it.current = none
    · simp only [hc, if_true, Res.throw.injEq, true_or, true_and]
      constructor
      · rintro ⟨rfl, rfl⟩; exact ⟨rfl, rfl⟩
      · rintro ⟨rfl, rfl⟩; exact ⟨rfl, rfl⟩
    · simp only [hc, if_false, false_or]
      cases hl : lookup h it.current with
      | none => simp [prevAt, hl]
      | some n =>
        by_cases hp : n.prev = none
        · simp only [hp, if_true, Res.throw.injEq, prevAt, hl, Option.map_some', true_and]
          constructor
          · rintro ⟨rfl, rfl⟩; exact ⟨rfl, rfl⟩
          · rintro ⟨rfl, rfl⟩; exact ⟨rfl, rfl⟩
        · simp [prevAt, hl, hp]
  · intro n hn hp
    have hc : it.current ≠ none := by
      intro e; rw [e] at hn; simp [lookup] at hn
    simp [postdec, hc, hn, hp]
  · intro l hi
    have ho := hi.owns
    refine ⟨by simp [postdec, end_], ?_, ?_⟩
    · intro hne
      cases hcs : cells h l with
      | nil =>
        have : l.count = 0 := by rw [ho.2.2.2.1, hcs]; rfl
        simp [empty, this] at hne
      | cons c cs =>
        rw [hcs] at ho
        obtain ⟨hb, hl⟩ := ho.begin_lookup
        rw [hb]; simp [postdec, hl]
    · intro i hlt
      have hcount : size l = (cells h l).length := ho.2.2.2.1
      rw [hcount] at hlt
      obtain ⟨_, hcur⟩ := ho.split_at i (by omega)
      obtain ⟨ho2, hcur1⟩ := ho.split_at (i + 1) hlt
      have hl := ho2.lookup_at
      rw [lastPtr_take_succ _ i (by omega) none] at hl
      rw [hcur, hcur1]
      exact ⟨by simp, by simp [postdec, hl]⟩

theorem C18_postdec_witness :
    Inv exHeap exList ∧ 1 + 1 < size exList ∧
    (cursorAt exHeap exList 1).current ≠ none ∧
    postdec exHeap (cursorAt exHeap exList (1 + 1)) =
      .ok (cursorAt exHeap exList 1) (cursorAt exHeap exList (1 + 1)) :=
  ⟨by decide, by decide,
    ((C18_postdec exHeap (end_ exList)).2.2 exList (by decide)).2.2 1 (by decide)⟩

/-- C19. On a well-formed sequence, for every `pos` that is a live position of it
or `end()`, and every `v`, `insert(pos, v)` followed by `erase` of the cursor it
returned runs without an error and gives back the original sequence: the same
`head`, `tail` and `count`, the same chain of nodes, the same elements in the same
order, the same size; and the cursor `erase` returns equals `pos`. -/
theorem C19_insert_erase {T : Type} (h : Heap T) (l : LList) (pos : BiDirectionalIterator)
    (v : T) (hi : Inv h l) (hpos : IsPos h l pos) :
    ∃ h1 l1 it h2 l2 it2, insert h l pos v = .ok (h1, l1) it ∧
      erase h1 l1 it = .ok (h2, l2) it2 ∧ it2 = pos ∧ it_eq it2 pos = true ∧
      l2 = l ∧ Inv h2 l2 ∧ cells h2 l2 = cells h l ∧ elements h2 l2 = elements h l ∧
      size l2 = size l := by
  have ho := hi.owns
  obtain ⟨xs, ys, hcs, hp⟩ := ho.isPos_split hpos
  have ho0 : Owns h l (xs ++ ys) := hcs ▸ ho
  obtain ⟨h1, l1, he1, ho1, _⟩ := insert_owns ho0 pos hp v
  obtain ⟨h2, l2, he2, ho2, _, _⟩ := erase_owns ho1
  have hl : l2 = l := ho0.same_members ho2
  have hit : (⟨firstPtr ys none⟩ : BiDirectionalIterator) = pos := by
    cases pos; simp only [BiDirectionalIterator.mk.injEq]; exact hp.symm
  refine ⟨h1, l1, _, h2, l2, _, he1, he2, hit, by rw [hit]; simp [it_eq], hl, ho2.inv, ?_, ?_,
    by rw [hl]⟩
  · rw [ho2.cells_eq, hcs]
  · rw [ho2.elements_eq, ho0.elements_eq]

theorem C19_insert_erase_witness :
    Inv exHeap exList ∧ IsPos exHeap exList ⟨some 0⟩ ∧
    ∃ h1 l1 it h2 l2 it2, insert exHeap exList ⟨some 0⟩ 9 = .ok (h1, l1) it ∧
      erase h1 l1 it = .ok (h2, l2) it2 ∧ it2 = ⟨some 0⟩ ∧ it_eq it2 ⟨some 0⟩ = true ∧
      l2 = exList ∧ Inv h2 l2 ∧ cells h2 l2 = cells exHeap exList ∧
      elements h2 l2 = elements exHeap exList ∧ size l2 = size exList :=
  ⟨by decide, by decide,
    C19_insert_erase exHeap exList ⟨some 0⟩ 9 (by decide) (by decide)⟩

/-- More fuel does not change an outcome of the equality loop. -/
theorem eqLoop_mono {T : Type} [BEq T] (h : Heap T) (lhs : LList) (fuel : Nat) :
    ∀ (p q : BiDirectionalIterator) (b : Bool) (r : Res Unit Bool),
      eqLoop h lhs fuel p q b = some r →
      ∀ fuel1, fuel ≤ fuel1 → eqLoop h lhs fuel1 p q b = some r := by
  induction fuel with
  | zero => intro p q b r he; simp [eqLoop] at he
  | succ k ih =>
    intro p q b r he fuel1 hle
    obtain ⟨k1, rfl⟩ : ∃ k1, fuel1 = k1 + 1 := ⟨fuel1 - 1, by omega⟩
    simp only [eqLoop] at he ⊢
    split
    · rename_i hcond
      simp only [hcond, if_true] at he
      cases hd1 : deref h p with
      | fault => simpa [hd1] using he
      | throw e s => simpa [hd1] using he
      | ok s1 x =>
        simp only [hd1] at he ⊢
        cases hd2 : deref h q with
        | fault => simpa [hd2] using he
        | throw e s => simpa [hd2] using he
        | ok s2 y =>
          simp only [hd2] at he ⊢
          cases hp1 : postinc h p with
          | fault => simpa [hp1] using he
          | throw e s => simpa [hp1] using he
          | ok p1 v1 =>
            simp only [hp1] at he ⊢
            cases hp2 : postinc h q with
            | fault => simpa [hp2] using he
            | throw e s => simpa [hp2] using he
            | ok q1 v2 =>
              simp only [hp2] at he ⊢
              exact ih p1 q1 (x == y) r he k1 (by omega)
    · rename_i hcond
      simpa [hcond] using he

/-- C20. For well-formed sequences `lhs` and `rhs` of any lengths, the evaluation of
`lhs == rhs` never throws and never reads through an absent or dangling cursor:
with whatever fuel, it either has not finished yet or has returned a boolean;
with fuel for more than `lhs.size()` tests of the loop condition it has returned
that boolean.  (The call takes both sequences by constant reference and writes
nothing to the heap.) -/
theorem C20_equality_safe {T : Type} [BEq T] (h : Heap T) (lhs rhs : LList)
    (hl : Inv h lhs) (hr : Inv h rhs) :
    ∃ b : Bool,
      (∀ fuel, size lhs < fuel → list_eq fuel h lhs rhs = some (.ok () b)) ∧
      (∀ fuel, list_eq fuel h lhs rhs = none ∨ list_eq fuel h lhs rhs = some (.ok () b)) ∧
      (∀ fuel e s, list_eq fuel h lhs rhs ≠ some (.throw e s)) ∧
      (∀ fuel, list_eq fuel h lhs rhs ≠ some .fault) := by
  have hol := hl.owns
  have hor := hr.owns
  have hmain : ∀ fuel, size lhs < fuel → list_eq fuel h lhs rhs = some (.ok ()
      ((cells h lhs).length == (cells h rhs).length &&
        allEq ((cells h lhs).map Prod.snd) ((cells h rhs).map Prod.snd))) := by
    intro fuel hf
    exact list_eq_owns hol hor fuel (by rw [← hol.2.2.2.1]; exact hf)
  have hall : ∀ fuel r, list_eq fuel h lhs rhs = some r → r = .ok ()
      ((cells h lhs).length == (cells h rhs).length &&
        allEq ((cells h lhs).map Prod.snd) ((cells h rhs).map Prod.snd)) := by
    intro fuel r he
    have h1 := eqLoop_mono h lhs fuel _ _ _ r he (fuel + (size lhs + 1)) (by omega)
    have h2 := hmain (fuel + (size lhs + 1)) (by omega)
    unfold list_eq at h2
    rw [h1] at h2
    exact Option.some.inj h2
  refine ⟨_, hmain, ?_, ?_, ?_⟩
  · intro fuel
    cases he : list_eq fuel h lhs rhs with
    | none => exact Or.inl rfl
    | some r => exact Or.inr (by rw [hall fuel r he])
  · intro fuel e s he
    exact Res.noConfusion (hall fuel _ he)
  · intro fuel he
    exact Res.noConfusion (hall fuel _ he)

theorem C20_equality_safe_witness :
    Inv exHeap2 exList ∧ Inv exHeap2 exOther ∧
    ∃ b : Bool,
      (∀ fuel, size exList < fuel → list_eq fuel exHeap2 exList exOther = some (.ok () b)) ∧
      (∀ fuel, list_eq fuel exHeap2 exList exOther = none ∨
        list_eq fuel exHeap2 exList exOther = some (.ok () b)) ∧
      (∀ fuel e s, list_eq fuel exHeap2 exList exOther ≠ some (.throw e s)) ∧
      (∀ fuel, list_eq fuel exHeap2 exList exOther ≠ some .fault) :=
  ⟨by decide, by decide, C20_equality_safe exHeap2 exList exOther (by decide) (by decide)⟩

end DLL
